import Mathlib

/-!
Verification of the fuzzy search result store (`src/app/src/main/rust/src/search/
result_manager/fuzzy.rs`) and its mode mux (`src/.../search/result_manager.rs`).

Shallow embedding conventions:
* machine integers are modelled as `Nat`/`Int` with explicit wrap-around where
  the source uses wrapping operations;
* the 8 raw value bytes of a record are a `List Nat` of little-endian bytes;
* `f64` values are modelled by `FP`: finite doubles are exact dyadic
  rationals, infinities and NaN keep their IEEE comparison behaviour;
  arithmetic (`f64sub`/`f64add`/`f64mul`) and the integer cast `intToF64`
  perform the exact rational operation and then round to the nearest binary64
  value (ties to even, with subnormals and overflow to infinity) as IEEE-754
  prescribes; the source literal `1e-9` is modelled by its binary64 value
  `4835703278458517 / 2 ^ 82`;
* the memory-mapped spill file is modelled by `Option (List Item)` holding the
  written prefix; bytes of the file beyond the written prefix are zero (the
  file is created with truncation and extended with `set_len`, hence
  zero-filled), which `List.getD _ zeroItem` reflects;
* fallible methods on `&mut self` return `Except String Unit × Store`: the
  returned store is the post-state (unchanged when the source returns an
  early error before mutating).
-/

set_option maxRecDepth 4000
set_option exponentiation.threshold 20000

namespace MX

/-- Modelled from the spec: `ValueType` (`search/types.rs` is not part of the
provided sources).  One-byte tag from the closed set
`{Byte, Word, Dword, Qword, Float, Double, Auto, Xor}`. -/
inductive ValueType where
  | Byte | Word | Dword | Qword | Float | Double | Auto | Xor
deriving DecidableEq, Repr

/-- Modelled from the spec: `size(type)` — significant prefix length of the
value bytes: 1, 2, 4, 8, 4, 8, 4, 4 respectively. -/
def ValueType.size : ValueType → Nat
  | .Byte => 1
  | .Word => 2
  | .Dword => 4
  | .Qword => 8
  | .Float => 4
  | .Double => 8
  | .Auto => 4
  | .Xor => 4

/-- Modelled from the spec: `Float`/`Double` route to the float comparator. -/
def ValueType.is_float_type : ValueType → Bool
  | .Float => true
  | .Double => true
  | _ => false

/-- Little-endian byte-list to natural number (each entry reduced mod 256,
reflecting the `u8` domain of the source bytes). -/
def leNat : List Nat → Nat
  | [] => 0
  | b :: bs => b % 256 + 256 * leNat bs

/-- Reinterpret the low `w` bits of `n` as a two's-complement signed value. -/
def toSigned (w : Nat) (n : Nat) : Int :=
  let m := n % 2 ^ w
  if m < 2 ^ (w - 1) then (m : Int) else (m : Int) - 2 ^ w

/-- `i64::wrapping_sub`: two's-complement wrap-around subtraction. -/
def wrapSub64 (a b : Int) : Int :=
  (a - b + 2 ^ 63) % 2 ^ 64 - 2 ^ 63

/-- Exact fraction with an (invariantly positive) integer denominator.  This
is the kernel-computable stand-in for the real numbers denoted by `f64`
values: no gcd normalization is performed, so all operations reduce inside
`decide`.  `Q.toRat` gives the denoted rational. -/
structure Q where
  num : Int
  den : Int
deriving DecidableEq, Repr

namespace Q

def ofInt (n : Int) : Q := ⟨n, 1⟩

def add (a b : Q) : Q := ⟨a.num * b.den + b.num * a.den, a.den * b.den⟩

def sub (a b : Q) : Q := ⟨a.num * b.den - b.num * a.den, a.den * b.den⟩

def mul (a b : Q) : Q := ⟨a.num * b.num, a.den * b.den⟩

def neg (a : Q) : Q := ⟨-a.num, a.den⟩

/-- Absolute value (valid under the positive-denominator invariant). -/
def abs (a : Q) : Q := ⟨|a.num|, a.den⟩

/-- `<` by cross-multiplication (valid under positive denominators). -/
def blt (a b : Q) : Bool := decide (a.num * b.den < b.num * a.den)

/-- `≤` by cross-multiplication (valid under positive denominators). -/
def ble (a b : Q) : Bool := decide (a.num * b.den ≤ b.num * a.den)

def isZero (a : Q) : Bool := a.num = 0

/-- Truncation toward zero (`Int.tdiv` is T-division; valid under the
positive-denominator invariant). -/
def trunc (a : Q) : Int := Int.tdiv a.num a.den

/-- The rational number denoted by the fraction. -/
def toRat (a : Q) : ℚ := (a.num : ℚ) / (a.den : ℚ)

/-- The positive-denominator invariant every constructed `Q` satisfies. -/
def wf (a : Q) : Prop := 0 < a.den

end Q

/-- Exact model of an `f64`/`f32` value: finite values are exact fractions,
infinities carry their sign, and NaN is a single absorbing value. -/
inductive FP where
  | finite (q : Q)
  | inf (neg : Bool)
  | nan
deriving DecidableEq, Repr

/-- `2^z` as an exact fraction, for a possibly negative exponent `z`. -/
def qpow2 (z : Int) : Q :=
  if 0 ≤ z then ⟨2 ^ z.toNat, 1⟩ else ⟨1, 2 ^ (-z).toNat⟩

/-- Decode IEEE-754 binary32 bits. -/
def decodeF32 (bits : Nat) : FP :=
  let s : Nat := bits / 2 ^ 31 % 2
  let e : Nat := bits / 2 ^ 23 % 2 ^ 8
  let m : Nat := bits % 2 ^ 23
  let sign : Int := if s = 1 then -1 else 1
  if e = 255 then (if m = 0 then .inf (s = 1) else .nan)
  else if e = 0 then .finite (Q.mul ⟨sign * m, 1⟩ (qpow2 (-149)))
  else .finite (Q.mul ⟨sign * (2 ^ 23 + m), 1⟩ (qpow2 ((e : Int) - 150)))

/-- Decode IEEE-754 binary64 bits. -/
def decodeF64 (bits : Nat) : FP :=
  let s : Nat := bits / 2 ^ 63 % 2
  let e : Nat := bits / 2 ^ 52 % 2 ^ 11
  let m : Nat := bits % 2 ^ 52
  let sign : Int := if s = 1 then -1 else 1
  if e = 2047 then (if m = 0 then .inf (s = 1) else .nan)
  else if e = 0 then .finite (Q.mul ⟨sign * m, 1⟩ (qpow2 (-1074)))
  else .finite (Q.mul ⟨sign * (2 ^ 52 + m), 1⟩ (qpow2 ((e : Int) - 1075)))

/-- Rust `as i64` float-to-integer cast: truncate toward zero, saturate at the
`i64` bounds, NaN maps to 0. -/
def fpToI64 : FP → Int
  | .nan => 0
  | .inf neg => if neg then -(2 ^ 63) else 2 ^ 63 - 1
  | .finite q =>
    let t := q.trunc
    if t < -(2 ^ 63) then -(2 ^ 63) else if 2 ^ 63 - 1 < t then 2 ^ 63 - 1 else t

/-- Binary search for the largest `acc ≤ 8191` with `2 ^ acc ≤ n`: the
recursion depth is 13, so it reduces cheaply in the kernel (`Nat.log2` itself
is avoided because its well-founded recursion does not reduce there; every
quantity this model constructs from record bytes is far below `2 ^ 8192`). -/
def log2Step : Nat → Nat → Nat → Nat
  | 0, acc, _ => acc
  | j + 1, acc, n =>
    if 2 ^ (acc + 2 ^ j) ≤ n then log2Step j (acc + 2 ^ j) n else log2Step j acc n

/-- Floor of the base-2 logarithm (0 at 0). -/
def natLog2 (n : Nat) : Nat := log2Step 13 0 n

/-- Binary search for the largest `t ≤ min k 8191` such that `2 ^ t` divides
`s` (for `s = 0` this is `min k 8191`). -/
def twosStep : Nat → Nat → Int → Nat → Nat
  | 0, acc, _, _ => acc
  | j + 1, acc, s, k =>
    if acc + 2 ^ j ≤ k && Int.emod s ((2 ^ (acc + 2 ^ j) : Nat) : Int) == 0 then
      twosStep j (acc + 2 ^ j) s k
    else twosStep j acc s k

/-- Canonical form of `s / 2 ^ k`: strip the common factors of two, so each
binary64 value has a unique fraction (odd numerator, or denominator 1). -/
def qCanon2 (s : Int) (k : Nat) : Q :=
  ⟨Int.ediv s ((2 ^ twosStep 13 0 s k : Nat) : Int),
   ((2 ^ (k - twosStep 13 0 s k) : Nat) : Int)⟩

/-- Does the positive fraction `n / d` lie at or above `2 ^ z`? -/
def qGePow2 (n d : Int) (z : Int) : Bool :=
  if 0 ≤ z then decide (d * ((2 ^ z.toNat : Nat) : Int) ≤ n)
  else decide (d ≤ n * ((2 ^ (-z).toNat : Nat) : Int))

/-- Floor of the base-2 logarithm of the positive fraction `n / d`. -/
def qLog2 (n d : Int) : Int :=
  let a : Int := natLog2 n.toNat
  let b : Int := natLog2 d.toNat
  if qGePow2 n d (a - b) then a - b else a - b - 1

/-- Round the positive fraction `n / d` to the nearest IEEE-754 binary64
value, ties to even: the significand is read off on the grid of spacing
`2 ^ (e - 52)` with `e = max ⌊log₂ (n/d)⌋ (-1022)` (normals and subnormals),
rounded half-to-even; the result is the exact fraction of the rounded value,
or `none` on overflow to infinity (magnitude reaching `2 ^ 1024`). -/
def roundPosF64 (n d : Int) : Option Q :=
  let e := max (qLog2 n d) (-1022)
  let shift := 52 - e
  let n2 := if 0 ≤ shift then n * ((2 ^ shift.toNat : Nat) : Int) else n
  let d2 := if 0 ≤ shift then d else d * ((2 ^ (-shift).toNat : Nat) : Int)
  let q := Int.ediv n2 d2
  let r := Int.emod n2 d2
  let s := if 2 * r < d2 then q
           else if d2 < 2 * r then q + 1
           else if Int.emod q 2 = 0 then q else q + 1
  let v : Q := if 0 ≤ e - 52 then ⟨s * ((2 ^ (e - 52).toNat : Nat) : Int), 1⟩
               else qCanon2 s (52 - e).toNat
  if qGePow2 v.num v.den 1024 then none else some v

/-- Round a fraction with positive denominator to the nearest binary64
value (overflow goes to the like-signed infinity). -/
def roundQ (a : Q) : FP :=
  if a.num = 0 then .finite ⟨0, 1⟩
  else if 0 < a.num then
    match roundPosF64 a.num a.den with
    | some v => .finite v
    | none => .inf false
  else
    match roundPosF64 (-a.num) a.den with
    | some v => .finite ⟨-v.num, v.den⟩
    | none => .inf true

/-- IEEE-754 binary64 subtraction: the exact difference, correctly rounded;
special values as in IEEE. -/
def f64sub : FP → FP → FP
  | .finite a, .finite b => roundQ (Q.sub a b)
  | .finite _, .inf n => .inf (!n)
  | .inf n, .finite _ => .inf n
  | .inf n, .inf m => if n = m then .nan else .inf n
  | _, _ => .nan

/-- IEEE-754 binary64 addition: the exact sum, correctly rounded. -/
def f64add : FP → FP → FP
  | .finite a, .finite b => roundQ (Q.add a b)
  | .finite _, .inf n => .inf n
  | .inf n, .finite _ => .inf n
  | .inf n, .inf m => if n = m then .inf n else .nan
  | _, _ => .nan

/-- IEEE-754 binary64 multiplication: the exact product, correctly rounded. -/
def f64mul : FP → FP → FP
  | .finite a, .finite b => roundQ (Q.mul a b)
  | .finite a, .inf n => if a.isZero then .nan else .inf (n ≠ Q.blt a ⟨0, 1⟩)
  | .inf n, .finite b => if b.isZero then .nan else .inf (n ≠ Q.blt b ⟨0, 1⟩)
  | .inf n, .inf m => .inf (n ≠ m)
  | _, _ => .nan

/-- Rust `as f64` on a signed integer: correctly rounded conversion (exact
below `2 ^ 53`, rounded above). -/
def intToF64 (n : Int) : FP := roundQ ⟨n, 1⟩

def FP.neg : FP → FP
  | .finite a => .finite (Q.neg a)
  | .inf n => .inf (!n)
  | .nan => .nan

def FP.abs : FP → FP
  | .finite a => .finite a.abs
  | .inf _ => .inf false
  | .nan => .nan

/-- IEEE `<` (false whenever a NaN is involved). -/
def FP.lt : FP → FP → Bool
  | .finite a, .finite b => Q.blt a b
  | .finite _, .inf n => !n
  | .inf n, .finite _ => n
  | .inf n, .inf m => n && !m
  | _, _ => false

/-- IEEE `<=` (false whenever a NaN is involved). -/
def FP.le : FP → FP → Bool
  | .finite a, .finite b => Q.ble a b
  | .finite _, .inf n => !n
  | .inf n, .finite _ => n
  | .inf n, .inf m => n = m
  | _, _ => false

/-- Modelled from the spec: `FuzzyCondition` (its defining module is not part
of the provided sources; the variant set and payload types follow the §4.1
table and the uses in `fuzzy.rs` — integer payloads are `i64`, percentages are
floating-point and modelled as exact rationals). -/
inductive FuzzyCondition where
  | Initial
  | Unchanged
  | Changed
  | Increased
  | Decreased
  | IncreasedBy (amount : Int)
  | DecreasedBy (amount : Int)
  | IncreasedByRange (min max : Int)
  | DecreasedByRange (min max : Int)
  | IncreasedByPercent (percent : Q)
  | DecreasedByPercent (percent : Q)
deriving DecidableEq, Repr

/-- `FuzzySearchResultItem`: address, 8 raw little-endian value bytes, type. -/
structure FuzzySearchResultItem where
  address : Nat
  value : List Nat
  value_type : ValueType
deriving DecidableEq, Repr

namespace FuzzySearchResultItem

/-- `FuzzySearchResultItem::from_bytes`: copy `min(len, 8)` bytes, zero-fill
the rest of the 8-byte value field. -/
def from_bytes (address : Nat) (bytes : List Nat) (value_type : ValueType) :
    FuzzySearchResultItem :=
  let len := min bytes.length 8
  { address := address
    value := bytes.take len ++ List.replicate (8 - len) 0
    value_type := value_type }

/-- `FuzzySearchResultItem::value_size`. -/
def value_size (it : FuzzySearchResultItem) : Nat := it.value_type.size

/-- `FuzzySearchResultItem::as_i64`: signed little-endian decode of the
type-determined prefix, sign-extended to 64 bits; float types decode the
IEEE value and cast it to `i64`. -/
def as_i64 (it : FuzzySearchResultItem) : Int :=
  match it.value_type with
  | .Byte => toSigned 8 (leNat (it.value.take 1))
  | .Word => toSigned 16 (leNat (it.value.take 2))
  | .Dword | .Auto | .Xor => toSigned 32 (leNat (it.value.take 4))
  | .Qword => toSigned 64 (leNat (it.value.take 8))
  | .Float => fpToI64 (decodeF32 (leNat (it.value.take 4)))
  | .Double => fpToI64 (decodeF64 (leNat (it.value.take 8)))

/-- `FuzzySearchResultItem::as_f64`: integer types convert with `as f64`
(correctly rounded, exact below `2 ^ 53`), float types decode the IEEE value
(`f32` widening to `f64` is exact). -/
def as_f64 (it : FuzzySearchResultItem) : FP :=
  match it.value_type with
  | .Byte => intToF64 (toSigned 8 (leNat (it.value.take 1)))
  | .Word => intToF64 (toSigned 16 (leNat (it.value.take 2)))
  | .Dword | .Auto | .Xor => intToF64 (toSigned 32 (leNat (it.value.take 4)))
  | .Qword => intToF64 (toSigned 64 (leNat (it.value.take 8)))
  | .Float => decodeF32 (leNat (it.value.take 4))
  | .Double => decodeF64 (leNat (it.value.take 8))

/-- `FuzzySearchResultItem::matches_condition_int`. -/
def matches_condition_int (it new_item : FuzzySearchResultItem)
    (condition : FuzzyCondition) : Bool :=
  let old_val := it.as_i64
  let new_val := new_item.as_i64
  let diff := wrapSub64 new_val old_val
  match condition with
  | .Initial => true
  | .Unchanged => old_val = new_val
  | .Changed => old_val ≠ new_val
  | .Increased => old_val < new_val
  | .Decreased => new_val < old_val
  | .IncreasedBy amount => diff = amount
  | .DecreasedBy amount => diff = -amount
  | .IncreasedByRange mn mx => mn ≤ diff ∧ diff ≤ mx
  | .DecreasedByRange mn mx => mn ≤ -diff ∧ -diff ≤ mx
  | .IncreasedByPercent percent =>
    if old_val = 0 then 0 < new_val
    else
      let threshold :=
        fpToI64 (f64mul (intToF64 old_val) (f64add (.finite (Q.ofInt 1)) (.finite percent)))
      threshold ≤ new_val
  | .DecreasedByPercent percent =>
    if old_val = 0 then new_val < 0
    else
      let threshold :=
        fpToI64 (f64mul (intToF64 old_val) (f64sub (.finite (Q.ofInt 1)) (.finite percent)))
      new_val ≤ threshold

/-- The fixed epsilon of the float comparator: the binary64 value denoted by
the source literal `1e-9`, namely `4835703278458517 / 2 ^ 82` (the literal
does not denote `10⁻⁹` exactly). -/
def epsilonF64 : FP := .finite ⟨4835703278458517, 2 ^ 82⟩

/-- `FuzzySearchResultItem::matches_condition_float`. -/
def matches_condition_float (it new_item : FuzzySearchResultItem)
    (condition : FuzzyCondition) : Bool :=
  let old_val := it.as_f64
  let new_val := new_item.as_f64
  let diff := f64sub new_val old_val
  let epsilon := epsilonF64
  match condition with
  | .Initial => true
  | .Unchanged => FP.lt (FP.abs (f64sub old_val new_val)) epsilon
  | .Changed => FP.le epsilon (FP.abs (f64sub old_val new_val))
  | .Increased => FP.lt (f64add old_val epsilon) new_val
  | .Decreased => FP.lt new_val (f64sub old_val epsilon)
  | .IncreasedBy amount =>
    FP.lt (FP.abs (f64sub diff (intToF64 amount))) epsilon
  | .DecreasedBy amount =>
    FP.lt (FP.abs (f64add diff (intToF64 amount))) epsilon
  | .IncreasedByRange mn mx =>
    FP.le (intToF64 mn) diff && FP.le diff (intToF64 mx)
  | .DecreasedByRange mn mx =>
    FP.le (intToF64 mn) (FP.neg diff) &&
      FP.le (FP.neg diff) (intToF64 mx)
  | .IncreasedByPercent percent =>
    if FP.lt (FP.abs old_val) epsilon then FP.lt epsilon new_val
    else FP.le (f64mul old_val (f64add (.finite (Q.ofInt 1)) (.finite percent))) new_val
  | .DecreasedByPercent percent =>
    if FP.lt (FP.abs old_val) epsilon then FP.lt new_val (FP.neg epsilon)
    else FP.le new_val (f64mul old_val (f64sub (.finite (Q.ofInt 1)) (.finite percent)))

/-- `FuzzySearchResultItem::matches_condition`. -/
def matches_condition (it : FuzzySearchResultItem) (new_bytes : List Nat)
    (condition : FuzzyCondition) : Bool :=
  let new_item := from_bytes it.address new_bytes it.value_type
  if it.value_type.is_float_type then
    it.matches_condition_float new_item condition
  else
    it.matches_condition_int new_item condition

/-- `FuzzySearchResultItem::with_new_value`. -/
def with_new_value (it : FuzzySearchResultItem) (new_bytes : List Nat) :
    FuzzySearchResultItem :=
  from_bytes it.address new_bytes it.value_type

end FuzzySearchResultItem

/-- The all-zero 17-byte record: address 0, zero value bytes, type tag 0
(`Byte` under the spec's tag encoding).  This is what reading fresh,
never-written bytes of the zero-filled spill file yields. -/
def zeroItem : FuzzySearchResultItem :=
  { address := 0, value := List.replicate 8 0, value_type := .Byte }

/-- `FuzzySearchResultManager` state.  `mmap` holds the written prefix of the
spill file when the file/mapping pair is live (`disk_file`/`mmap` are both
`Some` or both `None` at rest in the source, so they are fused here); bytes
beyond the written prefix are zero, reflected by `List.getD _ zeroItem` at
read sites.  File paths and the physical file length (grown in 128 MiB steps,
never observable through reads below `disk_count`) are not represented. -/
structure Store where
  memory_buffer : List FuzzySearchResultItem
  memory_buffer_capacity : Nat
  mmap : Option (List FuzzySearchResultItem)
  disk_count : Nat
  total_count : Nat
deriving DecidableEq, Repr

namespace Store

/-- `FuzzySearchResultManager::ITEM_SIZE` (`size_of::<FuzzySearchResultItem>()`
for the packed 17-byte record). -/
def ITEM_SIZE : Nat := 17

/-- `FuzzySearchResultManager::new`: byte budget to record capacity. -/
def new (memory_buffer_size : Nat) : Store :=
  let capacity := if memory_buffer_size = 0 then 0 else memory_buffer_size / ITEM_SIZE
  { memory_buffer := []
    memory_buffer_capacity := capacity
    mmap := none
    disk_count := 0
    total_count := 0 }

/-- `FuzzySearchResultManager::clear`: RAM and counters reset, the spill
file/mapping is kept. -/
def clear (s : Store) : Except String Unit × Store :=
  (.ok (), { s with memory_buffer := [], total_count := 0, disk_count := 0 })

/-- `FuzzySearchResultManager::clear_disk`: unmap, close and unlink the spill
file; reset `disk_count`.  `total_count` is left untouched. -/
def clear_disk (s : Store) : Except String Unit × Store :=
  (.ok (), { s with mmap := none, disk_count := 0 })

/-- `FuzzySearchResultManager::destroy`. -/
def destroy (s : Store) : Except String Unit × Store :=
  (.ok (), { s with memory_buffer := [], total_count := 0, disk_count := 0,
                    mmap := none })

/-- Overwrite position `i` of the written spill prefix (the file is always
grown before the write, and unwritten bytes are zero). -/
def diskWrite (c : List FuzzySearchResultItem) (i : Nat)
    (item : FuzzySearchResultItem) : List FuzzySearchResultItem :=
  if i < c.length then c.set i item
  else c ++ List.replicate (i - c.length) zeroItem ++ [item]

/-- `FuzzySearchResultManager::write_to_disk`: lazily create the file and
mapping (a fresh, zero-filled file: empty written prefix), then write the
record at offset `disk_count` and bump `disk_count`.  File growth is not
observable in the model. -/
def write_to_disk (s : Store) (item : FuzzySearchResultItem) : Store :=
  match s.mmap with
  | none =>
    -- init_disk_file: fresh zero-filled file, empty written prefix, then write
    { s with mmap := some (diskWrite [] s.disk_count item),
             disk_count := s.disk_count + 1 }
  | some c => { s with mmap := some (diskWrite c s.disk_count item),
                       disk_count := s.disk_count + 1 }

/-- `FuzzySearchResultManager::add_result` (the `total_count` increment after
the branch is folded into each branch). -/
def add_result (s : Store) (item : FuzzySearchResultItem) :
    Except String Unit × Store :=
  if s.memory_buffer_capacity = 0 then
    let s' := write_to_disk s item
    (.ok (), { s' with total_count := s'.total_count + 1 })
  else if s.memory_buffer.length < s.memory_buffer_capacity then
    (.ok (), { s with memory_buffer := s.memory_buffer ++ [item],
                      total_count := s.total_count + 1 })
  else
    let s' := write_to_disk s item
    (.ok (), { s' with total_count := s'.total_count + 1 })

/-- One iteration body of the `get_results` read loop: logical index `i`
comes from RAM when `i < memory_buffer.len()`, else from spill position
`i - memory_buffer.len()` — skipped entirely when no mapping is present. -/
def readAt (s : Store) (i : Nat) : List FuzzySearchResultItem :=
  if i < s.memory_buffer.length then [s.memory_buffer.getD i zeroItem]
  else
    match s.mmap with
    | some c => [c.getD (i - s.memory_buffer.length) zeroItem]
    | none => []

/-- The `for i in start..end` loop of `get_results`, by remaining count. -/
def getLoop (s : Store) : Nat → Nat → List FuzzySearchResultItem
  | _, 0 => []
  | i, k + 1 => readAt s i ++ getLoop s (i + 1) k

/-- `FuzzySearchResultManager::get_results`. -/
def get_results (s : Store) (start size : Nat) :
    Except String (List FuzzySearchResultItem) :=
  let e := min (start + size) s.total_count
  if s.total_count ≤ start then .ok []
  else .ok (getLoop s start (e - start))

/-- `FuzzySearchResultManager::get_all_results`. -/
def get_all_results (s : Store) : Except String (List FuzzySearchResultItem) :=
  s.get_results 0 s.total_count

/-- `FuzzySearchResultManager::memory_count`. -/
def memory_count (s : Store) : Nat := s.memory_buffer.length

/-- `FuzzySearchResultManager::update_result`. -/
def update_result (s : Store) (index : Nat) (item : FuzzySearchResultItem) :
    Except String Unit × Store :=
  if s.total_count ≤ index then (.error "Index out of bounds", s)
  else if index < s.memory_buffer.length then
    (.ok (), { s with memory_buffer := s.memory_buffer.set index item })
  else
    let disk_index := index - s.memory_buffer.length
    match s.mmap with
    | some c => (.ok (), { s with mmap := some (diskWrite c disk_index item) })
    | none => (.ok (), s)

/-- `FuzzySearchResultManager::remove_disk_item`: shift the spill tail left by
one record with an overlap-tolerant forward copy; the byte at the old last
position is left stale (it sits beyond the new `disk_count`). -/
def remove_disk_item (s : Store) (disk_index : Nat) : Except String Store :=
  if s.disk_count ≤ disk_index then .error "Disk index out of bounds"
  else
    match s.mmap with
    | none => .ok s
    | some c =>
      let move_count := s.disk_count - disk_index - 1
      let c' :=
        if 0 < move_count then
          c.take disk_index ++ (c.drop (disk_index + 1)).take move_count ++
            c.drop (s.disk_count - 1)
        else c
      .ok { s with mmap := some c', disk_count := s.disk_count - 1 }

/-- `FuzzySearchResultManager::remove_result`. -/
def remove_result (s : Store) (index : Nat) : Except String Unit × Store :=
  if s.total_count ≤ index then (.error "Index out of bounds", s)
  else if index < s.memory_buffer.length then
    (.ok (), { s with memory_buffer := s.memory_buffer.eraseIdx index,
                      total_count := s.total_count - 1 })
  else
    match s.remove_disk_item (index - s.memory_buffer.length) with
    | .error e => (.error e, s)
    | .ok s' => (.ok (), { s' with total_count := s'.total_count - 1 })

/-- `FuzzySearchResultManager::replace_all`: `clear` then sequential adds. -/
def replace_all (s : Store) (results : List FuzzySearchResultItem) :
    Except String Unit × Store :=
  let s0 := (s.clear).2
  (.ok (), results.foldl (fun acc item => (acc.add_result item).2) s0)

/-- The two-pointer compaction pass shared by the memory and disk batch
deletions: `pos` is the read cursor, `dels` the sorted remaining deletions;
kept elements are emitted in order (the in-place writes of the source build
exactly this sequence at the write cursor). -/
def twoPointer (items : List FuzzySearchResultItem) (dels : List Nat)
    (pos : Nat) : List FuzzySearchResultItem :=
  match items with
  | [] => []
  | x :: rest =>
    match dels with
    | d :: ds =>
      if pos = d then twoPointer rest ds (pos + 1)
      else x :: twoPointer rest (d :: ds) (pos + 1)
    | [] => x :: twoPointer rest [] (pos + 1)

/-- `FuzzySearchResultManager::remove_memory_batch` (indices sorted,
deduplicated). -/
def remove_memory_batch (buf : List FuzzySearchResultItem) :
    List Nat → List FuzzySearchResultItem
  | [] => buf
  | d :: ds =>
    if buf.isEmpty then buf
    else if buf.length ≤ d then buf
    else buf.take d ++ twoPointer (buf.drop d) (d :: ds) d

/-- `FuzzySearchResultManager::remove_disk_batch` (disk-local indices, sorted
and deduplicated).  Deletions at or beyond `disk_count` are drained by the
source's inner `while`; as they can never match a read position below
`disk_count`, this equals dropping them up front.  Stale bytes beyond the new
`disk_count` keep their previous contents. -/
def remove_disk_batch (s : Store) : List Nat → Store
  | [] => s
  | d :: ds =>
    if s.disk_count = 0 then s
    else
      match s.mmap with
      | none => s
      | some c =>
        if s.disk_count ≤ d then s
        else
          let seg := (c.drop d).take (s.disk_count - d)
          let kept := twoPointer seg ((d :: ds).filter (· < s.disk_count)) d
          { s with mmap := some (c.take d ++ kept ++ c.drop (d + kept.length)),
                   disk_count := d + kept.length }

/-- The index normalization of `remove_results_batch`: sort ascending,
deduplicate (consecutive dedup on a sorted list equals `List.dedup`), drop
out-of-range indices. -/
def normIndices (s : Store) (indices : List Nat) : List Nat :=
  ((indices.insertionSort (· ≤ ·)).dedup).filter (fun i => decide (i < s.total_count))

/-- The RAM half of the batch deletion: compact away the indices below the
seam (`partition` keeps both halves in sorted order, so the memory half is
the filter below `memory_len`). -/
def removeMemStep (s : Store) (is : List Nat) : Store :=
  if ((is.filter (fun i => decide (i < s.memory_buffer.length))).isEmpty) then s
  else { s with
         memory_buffer := remove_memory_batch s.memory_buffer
           (is.filter (fun i => decide (i < s.memory_buffer.length))) }

/-- The disk half of the batch deletion: the indices at or above the seam,
shifted to disk-local positions (`memory_len` is the RAM length captured
before the memory compaction, as in the source). -/
def removeDiskStep (s1 : Store) (memory_len : Nat) (is : List Nat) : Store :=
  if ((is.filter (fun i => ! decide (i < memory_len))).isEmpty) then s1
  else remove_disk_batch s1
    ((is.filter (fun i => ! decide (i < memory_len))).map (· - memory_len))

/-- `FuzzySearchResultManager::remove_results_batch`. -/
def remove_results_batch (s : Store) (indices : List Nat) :
    Except String Unit × Store :=
  if indices.isEmpty then (.ok (), s)
  else if (normIndices s indices).isEmpty then (.ok (), s)
  else
    (.ok (),
      { removeDiskStep (removeMemStep s (normIndices s indices))
          s.memory_buffer.length (normIndices s indices) with
        total_count :=
          (removeDiskStep (removeMemStep s (normIndices s indices))
            s.memory_buffer.length (normIndices s indices)).total_count
            - (normIndices s indices).length })

/-- The indexed read of the `keep_only_results` rebuild branch (out-of-range
indices skipped, disk reads skipped when no mapping is present). -/
def keepRead (s : Store) (idx : Nat) : Option FuzzySearchResultItem :=
  if s.total_count ≤ idx then none
  else if idx < s.memory_buffer.length then some (s.memory_buffer.getD idx zeroItem)
  else
    match s.mmap with
    | some c => some (c.getD (idx - s.memory_buffer.length) zeroItem)
    | none => none

/-- `FuzzySearchResultManager::keep_only_results` (`remove_count` is the
saturating subtraction `total_count - keep_count`, which is `Nat`
subtraction). -/
def keep_only_results (s : Store) (keep_indices : List Nat) :
    Except String Unit × Store :=
  if keep_indices.isEmpty then
    (.ok (), { s with memory_buffer := [], disk_count := 0, total_count := 0 })
  else if s.total_count - keep_indices.length = 0 then (.ok (), s)
  else if keep_indices.length ≤ s.total_count - keep_indices.length then
    -- rebuild strategy: materialize the kept records by indexed reads
    -- (out-of-range indices skipped), clear all state, re-append each
    (.ok (),
      ((keep_indices.insertionSort (· ≤ ·)).filterMap (keepRead s)).foldl
        (fun acc item => (acc.add_result item).2)
        { s with memory_buffer := [], disk_count := 0, total_count := 0 })
  else
    -- batch delete strategy: invert to a delete list
    s.remove_results_batch
      ((List.range s.total_count).filter (fun i => ¬ i ∈ keep_indices))

end Store

/-- `SearchResultMode` (`search/result_manager.rs`). -/
inductive SearchResultMode where
  | Exact
  | Fuzzy
deriving DecidableEq, Repr

/-- Modelled from the spec: `ExactSearchResultItem` — the exact store's
narrower record `(address, type)` (`result_manager/exact.rs` is not among the
provided sources). -/
structure ExactSearchResultItem where
  address : Nat
  value_type : ValueType
deriving DecidableEq, Repr

/-- Modelled from the spec: the exact store is "a simpler sibling — same
container shape, narrower record".  Only its call surface matters for the
mux claims (a mode-mismatched call never reaches it), so it is modelled as
the ordered record sequence it logically holds. -/
structure ExactStore where
  items : List ExactSearchResultItem
deriving DecidableEq, Repr

/-- Modelled from the spec: exact-store append. -/
def ExactStore.add_result (s : ExactStore) (item : ExactSearchResultItem) :
    Except String Unit × ExactStore :=
  (.ok (), { s with items := s.items ++ [item] })

/-- Modelled from the spec: exact-store `get_all_results`. -/
def ExactStore.get_all_results (s : ExactStore) :
    Except String (List ExactSearchResultItem) :=
  .ok s.items

/-- `SearchResultItem`: exact/fuzzy record variant. -/
inductive SearchResultItem where
  | Exact (item : ExactSearchResultItem)
  | Fuzzy (item : FuzzySearchResultItem)
deriving DecidableEq, Repr

/-- `SearchResultManager`: mode tag plus one store per mode. -/
structure Mux where
  current_mode : SearchResultMode
  exact : ExactStore
  fuzzy : Store
deriving DecidableEq, Repr

namespace Mux

/-- `SearchResultManager::add_result`: the generic add fails when the record
variant disagrees with the current mode. -/
def add_result (m : Mux) (item : SearchResultItem) : Except String Unit × Mux :=
  match m.current_mode, item with
  | .Exact, .Exact exact_item =>
    let (r, e') := m.exact.add_result exact_item
    (r, { m with exact := e' })
  | .Fuzzy, .Fuzzy fuzzy_item =>
    let (r, f') := m.fuzzy.add_result fuzzy_item
    (r, { m with fuzzy := f' })
  | _, _ => (.error "Mismatched SearchResultMode and SearchResultItem type", m)

/-- `SearchResultManager::add_fuzzy_result`. -/
def add_fuzzy_result (m : Mux) (item : FuzzySearchResultItem) :
    Except String Unit × Mux :=
  if m.current_mode ≠ .Fuzzy then (.error "Not in fuzzy mode", m)
  else
    let (r, f') := m.fuzzy.add_result item
    (r, { m with fuzzy := f' })

/-- `SearchResultManager::add_fuzzy_results_batch`. -/
def add_fuzzy_results_batch (m : Mux) (results : List FuzzySearchResultItem) :
    Except String Unit × Mux :=
  if m.current_mode ≠ .Fuzzy then (.error "Not in fuzzy mode", m)
  else
    (.ok (), results.foldl
      (fun acc item => { acc with fuzzy := (acc.fuzzy.add_result item).2 }) m)

/-- `SearchResultManager::get_all_exact_results`. -/
def get_all_exact_results (m : Mux) : Except String (List ExactSearchResultItem) :=
  match m.current_mode with
  | .Exact => m.exact.get_all_results
  | .Fuzzy => .error "Cannot get exact results in fuzzy mode"

/-- `SearchResultManager::get_all_fuzzy_results`. -/
def get_all_fuzzy_results (m : Mux) : Except String (List FuzzySearchResultItem) :=
  match m.current_mode with
  | .Exact => .error "Cannot get fuzzy results in exact mode"
  | .Fuzzy => m.fuzzy.get_all_results

/-- `SearchResultManager::replace_all_fuzzy_results`. -/
def replace_all_fuzzy_results (m : Mux) (results : List FuzzySearchResultItem) :
    Except String Unit × Mux :=
  if m.current_mode ≠ .Fuzzy then (.error "Not in fuzzy mode", m)
  else
    let (r, f') := m.fuzzy.replace_all results
    (r, { m with fuzzy := f' })

end Mux

/-- Keep exactly the elements of `l` whose position (counted from `n`)
satisfies `p` — the specification-level view of an order-preserving
compaction. -/
def idxFilterFrom (p : Nat → Prop) [DecidablePred p] :
    Nat → List FuzzySearchResultItem → List FuzzySearchResultItem
  | _, [] => []
  | n, x :: xs =>
    if p n then x :: idxFilterFrom p (n + 1) xs else idxFilterFrom p (n + 1) xs

/-- A capacity-2 store (34 bytes / 17 per record) filled across the seam with
three records: two in RAM, one spilled to disk. -/
def seamStore : Store :=
  ((((Store.new 34).add_result ⟨1, List.replicate 8 0, .Dword⟩).2.add_result
    ⟨2, List.replicate 8 0, .Dword⟩).2.add_result
    ⟨3, List.replicate 8 0, .Dword⟩).2

/-- A store with RAM capacity 10 holding two records, entirely in RAM. -/
def twoStore : Store :=
  (((Store.new 170).add_result ⟨1, List.replicate 8 0, .Dword⟩).2.add_result
    ⟨2, List.replicate 8 0, .Dword⟩).2

/-! ## Abstraction: the logical record sequence of a store -/

namespace Store

/-- The valid prefix of the spill file: the first `disk_count` records. -/
def diskPrefix (s : Store) : List FuzzySearchResultItem :=
  match s.mmap with
  | some c => c.take s.disk_count
  | none => []

/-- The logical record sequence: RAM prefix followed by the spill tail. -/
def absList (s : Store) : List FuzzySearchResultItem :=
  s.memory_buffer ++ s.diskPrefix

/-- Consistency invariant of a store (established by construction and
preserved by every mutating operation except `clear_disk`): the count
identity, and the mapping covers the `disk_count` valid records (with no
mapping only when `disk_count = 0`). -/
def Inv (s : Store) : Prop :=
  s.total_count = s.memory_buffer.length + s.disk_count ∧
  (match s.mmap with
   | some c => s.disk_count ≤ c.length
   | none => s.disk_count = 0)

/-- States in which an append lands after all present records: the RAM buffer
has spare room only while the disk is empty.  Holds after `clear` and is
preserved by `add_result`, which makes rebuild/replace flows order-safe. -/
def Ordered (s : Store) : Prop :=
  s.disk_count ≠ 0 →
    s.memory_buffer_capacity = 0 ∨
      s.memory_buffer_capacity ≤ s.memory_buffer.length

theorem Inv_new (n : Nat) : Inv (Store.new n) := by
  constructor <;> simp [Store.new]

theorem absList_length (s : Store) (h : Inv s) :
    (absList s).length = s.total_count := by
  obtain ⟨h1, h2⟩ := h
  unfold absList diskPrefix
  cases hm : s.mmap with
  | none => simp [hm] at h2; simp [h1, h2]
  | some c => simp [hm] at h2; simp [h1, Nat.min_eq_left h2]

theorem mmap_isSome_of_disk_pos (s : Store) (h : Inv s) (hd : 0 < s.disk_count) :
    ∃ c, s.mmap = some c ∧ s.disk_count ≤ c.length := by
  obtain ⟨-, h2⟩ := h
  cases hm : s.mmap with
  | none => rw [hm] at h2; omega
  | some c => rw [hm] at h2; exact ⟨c, rfl, h2⟩

theorem readAt_eq (s : Store) (h : Inv s) {i : Nat} (hi : i < s.total_count) :
    readAt s i = [(absList s).getD i zeroItem] := by
  unfold readAt absList
  by_cases hmem : i < s.memory_buffer.length
  · rw [if_pos hmem, List.getD_append _ _ _ _ hmem]
  · rw [if_neg hmem]
    have h1 := h.1
    have hd : 0 < s.disk_count := by omega
    obtain ⟨c, hc, hlen⟩ := mmap_isSome_of_disk_pos s h hd
    rw [hc]
    unfold diskPrefix
    rw [hc, List.getD_append_right _ _ _ _ (by omega)]
    have hlt : i - s.memory_buffer.length < s.disk_count := by omega
    simp only [List.getD_eq_getElem?_getD, List.getElem?_take, hlt, if_pos]

theorem getLoop_eq (s : Store) (h : Inv s) :
    ∀ (k i : Nat), i + k ≤ s.total_count →
      getLoop s i k = ((absList s).drop i).take k := by
  intro k
  induction k with
  | zero => intro i _; simp [getLoop]
  | succ n ih =>
    intro i hik
    have hi : i < s.total_count := by omega
    have hi' : i < (absList s).length := by rw [absList_length s h]; exact hi
    rw [getLoop, readAt_eq s h hi, List.drop_eq_getElem_cons hi', List.take_succ_cons,
      List.getD_eq_getElem _ _ hi', List.singleton_append]
    have := ih (i + 1) (by omega)
    rw [this]

theorem get_results_eq (s : Store) (h : Inv s) (start size : Nat) :
    get_results s start size = .ok (((absList s).drop start).take size) := by
  unfold get_results
  by_cases hs : s.total_count ≤ start
  · rw [if_pos hs]
    have : (absList s).drop start = [] :=
      List.drop_eq_nil_of_le (by rw [absList_length s h]; exact hs)
    rw [this, List.take_nil]
  · rw [if_neg hs]
    push_neg at hs
    have hk : start + (min (start + size) s.total_count - start) ≤ s.total_count := by
      omega
    rw [getLoop_eq s h _ _ hk]
    have hlen : ((absList s).drop start).length = s.total_count - start := by
      rw [List.length_drop, absList_length s h]
    refine congrArg _ (List.take_eq_take.mpr ?_)
    omega

theorem get_all_results_eq (s : Store) (h : Inv s) :
    get_all_results s = .ok (absList s) := by
  rw [get_all_results, get_results_eq s h, List.drop_zero]
  exact congrArg _ (List.take_of_length_le (by rw [absList_length s h]))

theorem diskPrefix_length (s : Store) (h : Inv s) :
    s.diskPrefix.length = s.disk_count := by
  obtain ⟨-, h2⟩ := h
  unfold diskPrefix
  cases hm : s.mmap with
  | none => rw [hm] at h2; simp [h2]
  | some c => rw [hm] at h2; simp [Nat.min_eq_left h2]

theorem write_to_disk_spec (s : Store) (h : Inv s) (x : FuzzySearchResultItem) :
    (write_to_disk s x).memory_buffer = s.memory_buffer ∧
    (write_to_disk s x).memory_buffer_capacity = s.memory_buffer_capacity ∧
    (write_to_disk s x).total_count = s.total_count ∧
    (write_to_disk s x).disk_count = s.disk_count + 1 ∧
    (write_to_disk s x).diskPrefix = s.diskPrefix ++ [x] ∧
    (match (write_to_disk s x).mmap with
     | some c => (write_to_disk s x).disk_count ≤ c.length
     | none => (write_to_disk s x).disk_count = 0) := by
  obtain ⟨-, h2⟩ := h
  unfold write_to_disk
  cases hm : s.mmap with
  | none =>
    rw [hm] at h2
    simp only [hm]
    refine ⟨trivial, trivial, trivial, trivial, ?_, ?_⟩
    · unfold diskPrefix
      simp [hm, diskWrite, h2]
    · simp [diskWrite, h2]
  | some c =>
    rw [hm] at h2
    simp only [hm]
    refine ⟨trivial, trivial, trivial, trivial, ?_, ?_⟩
    · unfold diskPrefix
      simp only [hm]
      unfold diskWrite
      by_cases hc : s.disk_count < c.length
      · rw [if_pos hc, List.set_eq_take_cons_drop _ hc,
          List.take_append_eq_append_take, List.take_take,
          Nat.min_eq_right (Nat.le_succ _), List.length_take,
          Nat.min_eq_left (Nat.le_of_lt hc), Nat.succ_sub (Nat.le_refl _),
          Nat.sub_self]
        simp
      · have hceq : s.disk_count = c.length := by omega
        rw [if_neg hc, hceq]
        simp [List.take_append_eq_append_take, List.take_of_length_le]
    · unfold diskWrite
      by_cases hc : s.disk_count < c.length
      · simp only [hc, if_true]
        simp only [List.length_set]
        omega
      · have hceq : s.disk_count = c.length := by omega
        simp [hc, hceq]

theorem add_result_spec (s : Store) (h : Inv s) (x : FuzzySearchResultItem) :
    (s.add_result x).1 = .ok () ∧
    Inv (s.add_result x).2 ∧
    (s.add_result x).2.total_count = s.total_count + 1 ∧
    (s.add_result x).2.memory_buffer_capacity = s.memory_buffer_capacity ∧
    absList (s.add_result x).2 =
      (if s.memory_buffer_capacity ≠ 0 ∧
          s.memory_buffer.length < s.memory_buffer_capacity
       then s.memory_buffer ++ [x] ++ s.diskPrefix
       else absList s ++ [x]) := by
  by_cases h0 : s.memory_buffer_capacity = 0
  · obtain ⟨hmem, hcap, htot, hdc, hpre, hinv⟩ := write_to_disk_spec s h x
    rw [add_result, if_pos h0]
    refine ⟨rfl, ⟨?_, hinv⟩, ?_, ?_, ?_⟩
    · show (write_to_disk s x).total_count + 1 =
        (write_to_disk s x).memory_buffer.length + (write_to_disk s x).disk_count
      rw [hmem, htot, hdc, h.1]
      omega
    · show (write_to_disk s x).total_count + 1 = s.total_count + 1
      rw [htot]
    · show (write_to_disk s x).memory_buffer_capacity = s.memory_buffer_capacity
      exact hcap
    · rw [if_neg (by simp [h0])]
      show absList (write_to_disk s x) = absList s ++ [x]
      unfold absList
      rw [hmem, hpre, ← List.append_assoc]
  · rw [add_result, if_neg h0]
    by_cases hroom : s.memory_buffer.length < s.memory_buffer_capacity
    · rw [if_pos hroom]
      refine ⟨rfl, ⟨?_, h.2⟩, rfl, rfl, ?_⟩
      · simp only [List.length_append, List.length_singleton, h.1]; omega
      · rw [if_pos ⟨h0, hroom⟩]
        show s.memory_buffer ++ [x] ++ s.diskPrefix = s.memory_buffer ++ [x] ++ s.diskPrefix
        rfl
    · obtain ⟨hmem, hcap, htot, hdc, hpre, hinv⟩ := write_to_disk_spec s h x
      rw [if_neg hroom]
      refine ⟨rfl, ⟨?_, hinv⟩, ?_, ?_, ?_⟩
      · show (write_to_disk s x).total_count + 1 =
          (write_to_disk s x).memory_buffer.length + (write_to_disk s x).disk_count
        rw [hmem, htot, hdc, h.1]
        omega
      · show (write_to_disk s x).total_count + 1 = s.total_count + 1
        rw [htot]
      · show (write_to_disk s x).memory_buffer_capacity = s.memory_buffer_capacity
        exact hcap
      · rw [if_neg (by tauto)]
        show absList (write_to_disk s x) = absList s ++ [x]
        unfold absList
        rw [hmem, hpre, ← List.append_assoc]

theorem add_result_ordered (s : Store) (h : Inv s) (ho : Ordered s)
    (x : FuzzySearchResultItem) :
    Inv (s.add_result x).2 ∧ Ordered (s.add_result x).2 ∧
    absList (s.add_result x).2 = absList s ++ [x] ∧
    (s.add_result x).2.memory_buffer_capacity = s.memory_buffer_capacity := by
  obtain ⟨-, hinv, htot, hcap, habs⟩ := add_result_spec s h x
  by_cases hbr : s.memory_buffer_capacity ≠ 0 ∧
      s.memory_buffer.length < s.memory_buffer_capacity
  · have hdc0 : s.disk_count = 0 := by
      by_contra hne
      rcases ho hne with h1 | h1
      · exact hbr.1 h1
      · omega
    have hpre : s.diskPrefix = [] := by
      have := diskPrefix_length s h
      rw [hdc0] at this
      exact List.eq_nil_of_length_eq_zero this
    rw [habs, if_pos hbr]
    refine ⟨hinv, ?_, ?_, hcap⟩
    · -- the push branch leaves disk_count unchanged at zero
      intro hd
      have hd' : (s.add_result x).2.disk_count = s.disk_count := by
        rw [add_result, if_neg hbr.1, if_pos hbr.2]
      rw [hd', hdc0] at hd
      exact absurd rfl hd
    · unfold absList
      simp [hpre]
  · rw [habs, if_neg hbr]
    refine ⟨hinv, ?_, rfl, hcap⟩
    intro _
    rw [hcap]
    by_cases h0 : s.memory_buffer_capacity = 0
    · exact Or.inl h0
    · have hfull : s.memory_buffer_capacity ≤ s.memory_buffer.length := by
        rcases not_and_or.mp hbr with hc | hc
        · exact absurd h0 (by simpa using hc)
        · omega
      right
      -- the spill branch leaves the RAM buffer unchanged (and it is full)
      have hmem' : (s.add_result x).2.memory_buffer = s.memory_buffer := by
        rw [add_result, if_neg h0, if_neg (by omega)]
        exact (write_to_disk_spec s h x).1
      rw [hmem']
      exact hfull

theorem foldl_add_result (l : List FuzzySearchResultItem) :
    ∀ s : Store, Inv s → Ordered s →
      Inv (l.foldl (fun acc it => (acc.add_result it).2) s) ∧
      Ordered (l.foldl (fun acc it => (acc.add_result it).2) s) ∧
      absList (l.foldl (fun acc it => (acc.add_result it).2) s) = absList s ++ l ∧
      (l.foldl (fun acc it => (acc.add_result it).2) s).memory_buffer_capacity =
        s.memory_buffer_capacity := by
  induction l with
  | nil => intro s h ho; exact ⟨h, ho, by simp, rfl⟩
  | cons x xs ih =>
    intro s h ho
    obtain ⟨h', ho', habs, hcap⟩ := add_result_ordered s h ho x
    obtain ⟨h'', ho'', habs', hcap'⟩ := ih _ h' ho'
    refine ⟨h'', ho'', ?_, ?_⟩
    · simp only [List.foldl_cons] at habs' ⊢
      rw [habs', habs, List.append_assoc]
      rfl
    · simp only [List.foldl_cons] at hcap' ⊢
      rw [hcap', hcap]

theorem clear_spec (s : Store) :
    (s.clear).1 = .ok () ∧ Inv (s.clear).2 ∧ Ordered (s.clear).2 ∧
    absList (s.clear).2 = [] := by
  refine ⟨rfl, ⟨by simp [clear], ?_⟩, by intro h; simp [clear] at h, ?_⟩
  · unfold clear
    cases s.mmap <;> simp
  · unfold absList diskPrefix clear
    cases s.mmap <;> simp

theorem destroy_spec (s : Store) :
    (s.destroy).1 = .ok () ∧ Inv (s.destroy).2 ∧
    absList (s.destroy).2 = [] := by
  refine ⟨rfl, ⟨by simp [destroy], by simp [destroy]⟩, ?_⟩
  unfold absList diskPrefix destroy
  simp

theorem replace_all_spec (s : Store)
    (l : List FuzzySearchResultItem) :
    (s.replace_all l).1 = .ok () ∧ Inv (s.replace_all l).2 ∧
    absList (s.replace_all l).2 = l := by
  obtain ⟨-, hinv, hord, habs⟩ := clear_spec s
  obtain ⟨h', -, habs', -⟩ := foldl_add_result l _ hinv hord
  refine ⟨rfl, h', ?_⟩
  show absList (l.foldl (fun acc it => (acc.add_result it).2) (s.clear).2) = l
  rw [habs', habs]
  rfl

theorem remove_disk_item_spec (s : Store) (h : Inv s) {di : Nat}
    (hdi : di < s.disk_count) :
    ∃ s', s.remove_disk_item di = .ok s' ∧
      s'.memory_buffer = s.memory_buffer ∧
      s'.memory_buffer_capacity = s.memory_buffer_capacity ∧
      s'.total_count = s.total_count ∧
      s'.disk_count = s.disk_count - 1 ∧
      s'.diskPrefix = s.diskPrefix.eraseIdx di ∧
      (match s'.mmap with
       | some c => s'.disk_count ≤ c.length
       | none => s'.disk_count = 0) := by
  obtain ⟨c, hm, hlen⟩ := mmap_isSome_of_disk_pos s h (by omega)
  rw [remove_disk_item, if_neg (by omega)]
  simp only [hm]
  by_cases hmc : 0 < s.disk_count - di - 1
  · rw [if_pos hmc]
    refine ⟨_, rfl, rfl, rfl, rfl, rfl, ?_, ?_⟩
    · have hA : (List.take di c).length = di := by
        rw [List.length_take]; omega
      have hB : ((List.drop (di + 1) c).take (s.disk_count - di - 1)).length =
          s.disk_count - di - 1 := by
        rw [List.length_take, List.length_drop]; omega
      simp only [diskPrefix, hm]
      rw [List.eraseIdx_eq_take_drop_succ, List.take_take,
        Nat.min_eq_left (by omega), List.drop_take,
        List.take_left' (by rw [List.length_append, hA, hB]; omega)]
      have h1 : s.disk_count - (di + 1) = s.disk_count - di - 1 := by omega
      rw [h1]
    · simp only [List.length_append, List.length_take, List.length_drop]
      omega
  · rw [if_neg hmc]
    refine ⟨_, rfl, rfl, rfl, rfl, rfl, ?_, ?_⟩
    · simp only [diskPrefix, hm]
      rw [List.eraseIdx_eq_take_drop_succ, List.take_take,
        Nat.min_eq_left (by omega)]
      have hdrop : List.drop (di + 1) (List.take s.disk_count c) = [] := by
        rw [List.drop_take]
        have h0 : s.disk_count - (di + 1) = 0 := by omega
        rw [h0, List.take_zero]
      rw [hdrop, List.append_nil]
      have hd1 : di = s.disk_count - 1 := by omega
      rw [hd1]
    · show s.disk_count - 1 ≤ c.length
      omega


theorem remove_result_spec (s : Store) (h : Inv s) {i : Nat}
    (hi : i < s.total_count) :
    (s.remove_result i).1 = .ok () ∧ Inv (s.remove_result i).2 ∧
    (s.remove_result i).2.total_count = s.total_count - 1 ∧
    (s.remove_result i).2.memory_buffer_capacity = s.memory_buffer_capacity ∧
    absList (s.remove_result i).2 = (absList s).eraseIdx i := by
  rw [remove_result, if_neg (by omega)]
  by_cases hmem : i < s.memory_buffer.length
  · rw [if_pos hmem]
    refine ⟨rfl, ⟨?_, h.2⟩, rfl, rfl, ?_⟩
    · show s.total_count - 1 = (s.memory_buffer.eraseIdx i).length + s.disk_count
      rw [List.length_eraseIdx, if_pos hmem, h.1]
      omega
    · show s.memory_buffer.eraseIdx i ++ s.diskPrefix = (absList s).eraseIdx i
      rw [absList, List.eraseIdx_append_of_lt_length hmem]
  · rw [if_neg hmem]
    have hdi : i - s.memory_buffer.length < s.disk_count := by
      have := h.1; omega
    obtain ⟨s', heq, hsmem, hscap, hstot, hsdc, hspre, hsinv⟩ :=
      remove_disk_item_spec s h hdi
    rw [heq]
    refine ⟨rfl, ⟨?_, hsinv⟩, ?_, ?_, ?_⟩
    · show s'.total_count - 1 = s'.memory_buffer.length + s'.disk_count
      rw [hstot, hsmem, hsdc, h.1]
      omega
    · show s'.total_count - 1 = s.total_count - 1
      rw [hstot]
    · show s'.memory_buffer_capacity = s.memory_buffer_capacity
      exact hscap
    · show absList s' = (absList s).eraseIdx i
      rw [absList, absList, hsmem, hspre,
        List.eraseIdx_append_of_length_le (by omega)]


end Store

theorem idxFilterFrom_congr (p q : Nat → Prop) [DecidablePred p]
    [DecidablePred q] : ∀ (n : Nat) (l : List FuzzySearchResultItem),
    (∀ i, n ≤ i → i < n + l.length → (p i ↔ q i)) →
    idxFilterFrom p n l = idxFilterFrom q n l := by
  intro n l
  induction l generalizing n with
  | nil => intro _; rfl
  | cons x xs ih =>
    intro hpq
    have hn : p n ↔ q n := hpq n (Nat.le_refl n) (by simp)
    have ih' := ih (n + 1) (fun i h1 h2 => hpq i (by omega) (by simp; omega))
    by_cases hp : p n
    · rw [idxFilterFrom, idxFilterFrom, if_pos hp, if_pos (hn.mp hp), ih']
    · rw [idxFilterFrom, idxFilterFrom, if_neg hp, if_neg (fun hq => hp (hn.mpr hq)), ih']

theorem idxFilterFrom_append (p : Nat → Prop) [DecidablePred p] :
    ∀ (n : Nat) (a b : List FuzzySearchResultItem),
    idxFilterFrom p n (a ++ b) =
      idxFilterFrom p n a ++ idxFilterFrom p (n + a.length) b := by
  intro n a
  induction a generalizing n with
  | nil => intro b; simp [idxFilterFrom]
  | cons x xs ih =>
    intro b
    rw [List.cons_append, idxFilterFrom, idxFilterFrom, ih (n + 1) b]
    simp only [List.length_cons]
    have h : n + 1 + xs.length = n + (xs.length + 1) := by omega
    rw [h]
    by_cases hp : p n
    · simp [hp]
    · simp [hp]

theorem idxFilterFrom_all (p : Nat → Prop) [DecidablePred p] :
    ∀ (n : Nat) (l : List FuzzySearchResultItem),
    (∀ i, n ≤ i → i < n + l.length → p i) → idxFilterFrom p n l = l := by
  intro n l
  induction l generalizing n with
  | nil => intro _; rfl
  | cons x xs ih =>
    intro hall
    rw [idxFilterFrom, if_pos (hall n (Nat.le_refl n) (by simp)),
      ih (n + 1) (fun i h1 h2 => hall i (by omega) (by simp; omega))]

theorem idxFilterFrom_sublist (p : Nat → Prop) [DecidablePred p] :
    ∀ (n : Nat) (l : List FuzzySearchResultItem),
    (idxFilterFrom p n l).Sublist l := by
  intro n l
  induction l generalizing n with
  | nil => exact List.Sublist.refl []
  | cons x xs ih =>
    rw [idxFilterFrom]
    by_cases hp : p n
    · rw [if_pos hp]
      exact List.Sublist.cons₂ x (ih (n + 1))
    · rw [if_neg hp]
      exact List.Sublist.cons x (ih (n + 1))

theorem idxFilterFrom_split (p : Nat → Prop) [DecidablePred p] (n k : Nat)
    (l : List FuzzySearchResultItem) (hk : k ≤ l.length)
    (hall : ∀ i, n ≤ i → i < n + k → p i) :
    idxFilterFrom p n l = l.take k ++ idxFilterFrom p (n + k) (l.drop k) := by
  conv_lhs => rw [← List.take_append_drop k l]
  rw [idxFilterFrom_append, idxFilterFrom_all p n (l.take k)
    (by rw [List.length_take, Nat.min_eq_left hk]; exact hall),
    List.length_take, Nat.min_eq_left hk]

namespace Store

theorem twoPointer_eq : ∀ (items : List FuzzySearchResultItem)
    (dels : List Nat) (pos : Nat), List.Pairwise (· < ·) dels →
    (∀ d ∈ dels, pos ≤ d) →
    twoPointer items dels pos = idxFilterFrom (fun i => ¬ i ∈ dels) pos items := by
  intro items
  induction items with
  | nil => intro dels pos _ _; cases dels <;> rfl
  | cons x rest ih =>
    intro dels pos hsort hge
    cases dels with
    | nil =>
      rw [twoPointer, idxFilterFrom, if_pos (by simp),
        ih [] (pos + 1) List.Pairwise.nil (by simp)]
    | cons d ds =>
      by_cases hpd : pos = d
      · rw [twoPointer, if_pos hpd, idxFilterFrom,
          if_neg (by simp [hpd]),
          ih ds (pos + 1) (List.Pairwise.sublist (List.sublist_cons_self d ds) hsort)
            (fun e he => by
              have := (List.pairwise_cons.mp hsort).1 e he
              omega)]
        exact idxFilterFrom_congr _ _ (pos + 1) rest (fun i h1 h2 => by
          constructor
          · intro hnot hmem
            rcases List.mem_cons.mp hmem with h | h
            · omega
            · exact hnot h
          · intro hnot hmem
            exact hnot (List.mem_cons_of_mem d hmem))
      · have hlt : pos < d := by
          have := hge d (List.mem_cons_self d ds)
          omega
        rw [twoPointer, if_neg hpd, idxFilterFrom,
          if_pos (by
            intro hmem
            rcases List.mem_cons.mp hmem with h | h
            · omega
            · have := (List.pairwise_cons.mp hsort).1 pos h
              have := hge pos (List.mem_cons_of_mem d h)
              omega),
          ih (d :: ds) (pos + 1) hsort
            (fun e he => by
              rcases List.mem_cons.mp he with h | h
              · omega
              · have := (List.pairwise_cons.mp hsort).1 e h
                omega)]

theorem twoPointer_length : ∀ (items : List FuzzySearchResultItem)
    (dels : List Nat) (pos : Nat), List.Pairwise (· < ·) dels →
    (∀ d ∈ dels, pos ≤ d ∧ d < pos + items.length) →
    (twoPointer items dels pos).length + dels.length = items.length := by
  intro items
  induction items with
  | nil =>
    intro dels pos _ hb
    cases dels with
    | nil => rfl
    | cons d ds =>
      have := hb d (List.mem_cons_self d ds)
      simp at this
      omega
  | cons x rest ih =>
    intro dels pos hsort hb
    cases dels with
    | nil =>
      rw [twoPointer]
      have := ih [] (pos + 1) List.Pairwise.nil (by simp)
      simp at this ⊢
      omega
    | cons d ds =>
      by_cases hpd : pos = d
      · rw [twoPointer, if_pos hpd]
        have := ih ds (pos + 1)
          (List.Pairwise.sublist (List.sublist_cons_self d ds) hsort)
          (fun e he => by
            have h1 := (List.pairwise_cons.mp hsort).1 e he
            have h2 := (hb e (List.mem_cons_of_mem d he)).2
            constructor
            · omega
            · simp at h2 ⊢; omega)
        simp at this ⊢
        omega
      · have hlt : pos < d := by
          have := (hb d (List.mem_cons_self d ds)).1
          omega
        rw [twoPointer, if_neg hpd]
        have := ih (d :: ds) (pos + 1) hsort
          (fun e he => by
            have h2 := (hb e he).2
            rcases List.mem_cons.mp he with h | h
            · constructor
              · omega
              · simp at h2 ⊢; omega
            · have := (List.pairwise_cons.mp hsort).1 e h
              constructor
              · omega
              · simp at h2 ⊢; omega)
        simp at this ⊢
        omega


theorem length_filter_split {α : Type} (p : α → Bool) (l : List α) :
    (l.filter p).length + (l.filter (fun a => !(p a))).length = l.length := by
  induction l with
  | nil => rfl
  | cons x xs ih => by_cases h : p x <;> simp [List.filter, h] <;> omega

theorem idxFilterFrom_shift (p : Nat → Prop) [DecidablePred p] (m : Nat) :
    ∀ (l : List FuzzySearchResultItem) (n : Nat),
    idxFilterFrom p (m + n) l = idxFilterFrom (fun i => p (m + i)) n l := by
  intro l
  induction l with
  | nil => intro n; rfl
  | cons x xs ih =>
    intro n
    rw [idxFilterFrom, idxFilterFrom]
    have h : m + n + 1 = m + (n + 1) := by omega
    by_cases hp : p (m + n)
    · rw [if_pos hp, if_pos hp, h, ih (n + 1)]
    · rw [if_neg hp, if_neg hp, h, ih (n + 1)]

theorem remove_memory_batch_eq (buf : List FuzzySearchResultItem)
    (dels : List Nat) (hsort : List.Pairwise (· < ·) dels)
    (hb : ∀ d ∈ dels, d < buf.length) :
    remove_memory_batch buf dels =
      idxFilterFrom (fun i => ¬ i ∈ dels) 0 buf ∧
    (remove_memory_batch buf dels).length + dels.length = buf.length := by
  cases dels with
  | nil =>
    rw [remove_memory_batch,
      idxFilterFrom_all _ 0 buf (fun i _ _ => List.not_mem_nil i)]
    refine ⟨rfl, ?_⟩
    show buf.length + ([] : List Nat).length = buf.length
    simp
  | cons d ds =>
    have hd : d < buf.length := hb d (List.mem_cons_self d ds)
    have hbe : ¬ buf.isEmpty := by
      cases buf
      · simp at hd
      · simp
    have hge : ∀ e ∈ d :: ds, d ≤ e := by
      intro e he
      rcases List.mem_cons.mp he with h | h
      · omega
      · have := (List.pairwise_cons.mp hsort).1 e h
        omega
    have htp := twoPointer_eq (buf.drop d) (d :: ds) d hsort hge
    have htplen := twoPointer_length (buf.drop d) (d :: ds) d hsort
      (fun e he => ⟨hge e he, by
        rw [List.length_drop]
        have := hb e he
        omega⟩)
    have hmain : remove_memory_batch buf (d :: ds) =
        buf.take d ++ twoPointer (buf.drop d) (d :: ds) d := by
      rw [remove_memory_batch, if_neg (by simp [hbe]), if_neg (by omega)]
    constructor
    · rw [hmain, htp,
        idxFilterFrom_split _ 0 d buf (by omega)
          (fun i _ hi => by
            intro hmem
            have := hge i hmem
            omega)]
      rw [Nat.zero_add]
    · rw [hmain]
      rw [List.length_append, List.length_take, Nat.min_eq_left (by omega)]
      rw [List.length_drop] at htplen
      omega

theorem remove_disk_batch_spec (s : Store) (dels : List Nat)
    (hm2 : match s.mmap with
           | some c => s.disk_count ≤ c.length
           | none => s.disk_count = 0)
    (hsort : List.Pairwise (· < ·) dels) (hne : dels ≠ [])
    (hb : ∀ d ∈ dels, d < s.disk_count) :
    (remove_disk_batch s dels).memory_buffer = s.memory_buffer ∧
    (remove_disk_batch s dels).memory_buffer_capacity = s.memory_buffer_capacity ∧
    (remove_disk_batch s dels).total_count = s.total_count ∧
    (remove_disk_batch s dels).disk_count + dels.length = s.disk_count ∧
    (remove_disk_batch s dels).diskPrefix =
      idxFilterFrom (fun i => ¬ i ∈ dels) 0 s.diskPrefix ∧
    (match (remove_disk_batch s dels).mmap with
     | some c => (remove_disk_batch s dels).disk_count ≤ c.length
     | none => (remove_disk_batch s dels).disk_count = 0) := by
  cases dels with
  | nil => exact absurd rfl hne
  | cons d ds =>
  have hd : d < s.disk_count := hb d (List.mem_cons_self d ds)
  have hdc : 0 < s.disk_count := by omega
  cases hm : s.mmap with
  | none => rw [hm] at hm2; omega
  | some c =>
  rw [hm] at hm2
  have hge : ∀ e ∈ d :: ds, d ≤ e := by
    intro e he
    rcases List.mem_cons.mp he with h | h
    · omega
    · have := (List.pairwise_cons.mp hsort).1 e h
      omega
  have hfilt : (d :: ds).filter (fun i => decide (i < s.disk_count)) = d :: ds :=
    List.filter_eq_self.mpr (fun a ha => by simpa using hb a ha)
  have hseg : ((c.drop d).take (s.disk_count - d)).length = s.disk_count - d := by
    rw [List.length_take, List.length_drop]
    omega
  have htp := twoPointer_eq ((c.drop d).take (s.disk_count - d)) (d :: ds) d hsort hge
  have htplen := twoPointer_length ((c.drop d).take (s.disk_count - d)) (d :: ds) d
    hsort (fun e he => ⟨hge e he, by rw [hseg]; have := hb e he; omega⟩)
  rw [hseg] at htplen
  set kept := twoPointer ((c.drop d).take (s.disk_count - d)) (d :: ds) d with hkept
  have hmain : remove_disk_batch s (d :: ds) =
      { s with mmap := some (c.take d ++ kept ++ c.drop (d + kept.length)),
               disk_count := d + kept.length } := by
    rw [remove_disk_batch, if_neg (by omega)]
    simp only [hm]
    rw [if_neg (by omega), hfilt]
  have hkeptlen : kept.length = s.disk_count - d - (d :: ds).length := by
    simp at htplen ⊢
    omega
  have hlenA : (c.take d).length = d := by
    rw [List.length_take]; omega
  refine ⟨by rw [hmain], by rw [hmain], by rw [hmain], ?_, ?_, ?_⟩
  · rw [hmain]
    show d + kept.length + (d :: ds).length = s.disk_count
    omega
  · rw [hmain]
    show List.take (d + kept.length) (c.take d ++ kept ++ c.drop (d + kept.length)) =
      idxFilterFrom (fun i => ¬ i ∈ d :: ds) 0 s.diskPrefix
    rw [List.take_left' (by rw [List.length_append, hlenA])]
    unfold diskPrefix
    rw [hm,
      idxFilterFrom_split _ 0 d (c.take s.disk_count)
        (by rw [List.length_take]; omega)
        (fun i _ hi => by
          intro hmem
          have := hge i hmem
          omega),
      List.take_take, Nat.min_eq_left (by omega), Nat.zero_add,
      List.drop_take, htp]
  · rw [hmain]
    show d + kept.length ≤ (c.take d ++ kept ++ c.drop (d + kept.length)).length
    simp only [List.length_append, List.length_take, List.length_drop]
    omega


theorem length_filter_split2 {α : Type} (p q : α → Bool)
    (hq : ∀ a, q a = !(p a)) (l : List α) :
    (l.filter p).length + (l.filter q).length = l.length := by
  induction l with
  | nil => rfl
  | cons x xs ih => by_cases h : p x <;> simp [List.filter, h, hq] <;> omega

theorem removeMemStep_spec (s : Store) (is : List Nat)
    (hsort : List.Pairwise (· < ·) is) :
    (removeMemStep s is).memory_buffer =
      idxFilterFrom (fun i => ¬ i ∈ is) 0 s.memory_buffer ∧
    (removeMemStep s is).memory_buffer.length +
      (is.filter (fun i => decide (i < s.memory_buffer.length))).length =
      s.memory_buffer.length ∧
    (removeMemStep s is).memory_buffer_capacity = s.memory_buffer_capacity ∧
    (removeMemStep s is).mmap = s.mmap ∧
    (removeMemStep s is).disk_count = s.disk_count ∧
    (removeMemStep s is).total_count = s.total_count := by
  have hmm : ∀ i, i ∈ is.filter (fun i => decide (i < s.memory_buffer.length)) ↔
      (i ∈ is ∧ i < s.memory_buffer.length) := by
    intro i; simp [List.mem_filter]
  by_cases he : (is.filter (fun i => decide (i < s.memory_buffer.length))).isEmpty
  · have hnil := List.isEmpty_iff.mp he
    rw [removeMemStep, if_pos he]
    refine ⟨?_, ?_, rfl, rfl, rfl, rfl⟩
    · symm
      apply idxFilterFrom_all
      intro i _ hi hmem
      have hin : i ∈ is.filter (fun i => decide (i < s.memory_buffer.length)) :=
        (hmm i).mpr ⟨hmem, by simpa using hi⟩
      rw [hnil] at hin
      exact absurd hin (List.not_mem_nil i)
    · rw [hnil]; simp
  · rw [removeMemStep, if_neg he]
    have hsort2 : List.Pairwise (· < ·)
        (is.filter (fun i => decide (i < s.memory_buffer.length))) :=
      List.Pairwise.sublist (List.filter_sublist is) hsort
    have hb : ∀ d ∈ is.filter (fun i => decide (i < s.memory_buffer.length)),
        d < s.memory_buffer.length := fun d hd => ((hmm d).mp hd).2
    obtain ⟨heq, hlen⟩ := remove_memory_batch_eq s.memory_buffer _ hsort2 hb
    refine ⟨?_, hlen, rfl, rfl, rfl, rfl⟩
    rw [heq]
    apply idxFilterFrom_congr
    intro i _ hi
    rw [Nat.zero_add] at hi
    constructor
    · intro hnot hmem
      exact hnot ((hmm i).mpr ⟨hmem, hi⟩)
    · intro hnot hmem
      exact hnot ((hmm i).mp hmem).1

theorem removeDiskStep_spec (s1 : Store) (memory_len : Nat) (is : List Nat)
    (hm2 : match s1.mmap with
           | some c => s1.disk_count ≤ c.length
           | none => s1.disk_count = 0)
    (hsort : List.Pairwise (· < ·) is)
    (hup : ∀ i ∈ is, i < memory_len + s1.disk_count) :
    (removeDiskStep s1 memory_len is).memory_buffer = s1.memory_buffer ∧
    (removeDiskStep s1 memory_len is).memory_buffer_capacity =
      s1.memory_buffer_capacity ∧
    (removeDiskStep s1 memory_len is).total_count = s1.total_count ∧
    (removeDiskStep s1 memory_len is).disk_count +
      (is.filter (fun i => ! decide (i < memory_len))).length = s1.disk_count ∧
    (removeDiskStep s1 memory_len is).diskPrefix =
      idxFilterFrom (fun j => ¬ (memory_len + j) ∈ is) 0 s1.diskPrefix ∧
    (match (removeDiskStep s1 memory_len is).mmap with
     | some c => (removeDiskStep s1 memory_len is).disk_count ≤ c.length
     | none => (removeDiskStep s1 memory_len is).disk_count = 0) := by
  have hdm : ∀ i, i ∈ is.filter (fun i => ! decide (i < memory_len)) ↔
      (i ∈ is ∧ memory_len ≤ i) := by
    intro i
    simp [List.mem_filter]
  have hadj : ∀ j, j ∈ (is.filter (fun i => ! decide (i < memory_len))).map
      (· - memory_len) ↔ (memory_len + j) ∈ is := by
    intro j
    rw [List.mem_map]
    constructor
    · rintro ⟨d, hd, rfl⟩
      obtain ⟨hdin, hdge⟩ := (hdm d).mp hd
      have : memory_len + (d - memory_len) = d := by omega
      rwa [this]
    · intro hin
      exact ⟨memory_len + j, (hdm _).mpr ⟨hin, by omega⟩, by omega⟩
  by_cases he : (is.filter (fun i => ! decide (i < memory_len))).isEmpty
  · have hnil := List.isEmpty_iff.mp he
    rw [removeDiskStep, if_pos he]
    refine ⟨rfl, rfl, rfl, by rw [hnil]; simp, ?_, hm2⟩
    symm
    apply idxFilterFrom_all
    intro j _ _ hmem
    have hin := (hadj j).mpr hmem
    rw [hnil] at hin
    exact absurd hin (List.not_mem_nil _)
  · rw [removeDiskStep, if_neg he]
    have hsort2 : List.Pairwise (· < ·)
        ((is.filter (fun i => ! decide (i < memory_len))).map (· - memory_len)) := by
      rw [List.pairwise_map]
      refine List.Pairwise.imp_of_mem ?_
        (List.Pairwise.sublist (List.filter_sublist is) hsort)
      intro a b ha _ hab
      have hage := ((hdm a).mp ha).2
      omega
    have hne : (is.filter (fun i => ! decide (i < memory_len))).map
        (· - memory_len) ≠ [] := by
      intro hcon
      rw [List.map_eq_nil_iff] at hcon
      rw [hcon] at he
      simp at he
    have hb : ∀ d ∈ (is.filter (fun i => ! decide (i < memory_len))).map
        (· - memory_len), d < s1.disk_count := by
      intro d hd
      have hin := (hadj d).mp hd
      have := hup _ hin
      omega
    obtain ⟨h1, h2, h3, h4, h5, h6⟩ :=
      remove_disk_batch_spec s1 _ hm2 hsort2 hne hb
    refine ⟨h1, h2, h3, ?_, ?_, h6⟩
    · rw [List.length_map] at h4
      exact h4
    · rw [h5]
      apply idxFilterFrom_congr
      intro j _ _
      constructor
      · intro hnot hmem
        exact hnot ((hadj j).mpr hmem)
      · intro hnot hmem
        exact hnot ((hadj j).mp hmem)


theorem normIndices_sorted (s : Store) (indices : List Nat) :
    List.Pairwise (· < ·) (normIndices s indices) := by
  unfold normIndices
  refine List.Pairwise.sublist (List.filter_sublist _) ?_
  have hle : List.Pairwise (· ≤ ·) ((indices.insertionSort (· ≤ ·)).dedup) :=
    List.Pairwise.sublist (List.dedup_sublist _)
      (List.sorted_insertionSort (· ≤ ·) indices)
  have hne : List.Pairwise (· ≠ ·) ((indices.insertionSort (· ≤ ·)).dedup) :=
    List.nodup_dedup _
  exact (hle.and hne).imp (fun hab => lt_of_le_of_ne hab.1 hab.2)

theorem normIndices_mem (s : Store) (indices : List Nat) (i : Nat) :
    i ∈ normIndices s indices ↔ (i ∈ indices ∧ i < s.total_count) := by
  unfold normIndices
  rw [List.mem_filter, List.mem_dedup, List.mem_insertionSort]
  simp

theorem remove_results_batch_spec (s : Store) (h : Inv s) (indices : List Nat) :
    (s.remove_results_batch indices).1 = .ok () ∧
    Inv (s.remove_results_batch indices).2 ∧
    (s.remove_results_batch indices).2.memory_buffer_capacity =
      s.memory_buffer_capacity ∧
    absList (s.remove_results_batch indices).2 =
      idxFilterFrom (fun i => ¬ i ∈ indices) 0 (absList s) := by
  by_cases hempty : indices.isEmpty
  · have hnil := List.isEmpty_iff.mp hempty
    rw [remove_results_batch, if_pos hempty]
    refine ⟨rfl, h, rfl, ?_⟩
    symm
    apply idxFilterFrom_all
    intro i _ _ hmem
    rw [hnil] at hmem
    exact absurd hmem (List.not_mem_nil i)
  · rw [remove_results_batch, if_neg hempty]
    by_cases hnorm : (normIndices s indices).isEmpty
    · have hnil := List.isEmpty_iff.mp hnorm
      rw [if_pos hnorm]
      refine ⟨rfl, h, rfl, ?_⟩
      symm
      apply idxFilterFrom_all
      intro i _ hi hmem
      rw [Nat.zero_add, absList_length s h] at hi
      have : i ∈ normIndices s indices := (normIndices_mem s indices i).mpr ⟨hmem, hi⟩
      rw [hnil] at this
      exact absurd this (List.not_mem_nil i)
    · rw [if_neg hnorm]
      obtain ⟨m1, m2, m3, m4, m5, m6⟩ :=
        removeMemStep_spec s (normIndices s indices) (normIndices_sorted s indices)
      have hm2' : match (removeMemStep s (normIndices s indices)).mmap with
          | some c => (removeMemStep s (normIndices s indices)).disk_count ≤ c.length
          | none => (removeMemStep s (normIndices s indices)).disk_count = 0 := by
        rw [m4, m5]
        exact h.2
      have hup : ∀ i ∈ normIndices s indices,
          i < s.memory_buffer.length +
            (removeMemStep s (normIndices s indices)).disk_count := by
        intro i hi
        rw [m5]
        have h2 := ((normIndices_mem s indices i).mp hi).2
        have h1 := h.1
        omega
      obtain ⟨d1, d2, d3, d4, d5, d6⟩ :=
        removeDiskStep_spec (removeMemStep s (normIndices s indices))
          s.memory_buffer.length (normIndices s indices) hm2'
          (normIndices_sorted s indices) hup
      have hsplit := length_filter_split2
        (fun i => decide (i < s.memory_buffer.length))
        (fun i => ! decide (i < s.memory_buffer.length)) (fun a => rfl)
        (normIndices s indices)
      have hpre1 : (removeMemStep s (normIndices s indices)).diskPrefix =
          s.diskPrefix := by
        unfold diskPrefix
        rw [m4, m5]
      refine ⟨rfl, ⟨?_, ?_⟩, ?_, ?_⟩
      · show (removeDiskStep (removeMemStep s (normIndices s indices))
            s.memory_buffer.length (normIndices s indices)).total_count
            - (normIndices s indices).length =
          (removeDiskStep (removeMemStep s (normIndices s indices))
            s.memory_buffer.length (normIndices s indices)).memory_buffer.length +
          (removeDiskStep (removeMemStep s (normIndices s indices))
            s.memory_buffer.length (normIndices s indices)).disk_count
        rw [d3, m6, d1, m1]
        have hmemlen : (idxFilterFrom (fun i => ¬ i ∈ normIndices s indices) 0
            s.memory_buffer).length +
            ((normIndices s indices).filter
              (fun i => decide (i < s.memory_buffer.length))).length =
            s.memory_buffer.length := by
          rw [← m1]; exact m2
        have h1 := h.1
        rw [m5] at d4
        omega
      · show (match (removeDiskStep (removeMemStep s (normIndices s indices))
            s.memory_buffer.length (normIndices s indices)).mmap with
          | some c => (removeDiskStep (removeMemStep s (normIndices s indices))
              s.memory_buffer.length (normIndices s indices)).disk_count ≤ c.length
          | none => (removeDiskStep (removeMemStep s (normIndices s indices))
              s.memory_buffer.length (normIndices s indices)).disk_count = 0)
        exact d6
      · show (removeDiskStep (removeMemStep s (normIndices s indices))
            s.memory_buffer.length (normIndices s indices)).memory_buffer_capacity =
            s.memory_buffer_capacity
        rw [d2, m3]
      · show absList (removeDiskStep (removeMemStep s (normIndices s indices))
            s.memory_buffer.length (normIndices s indices)) = _
        rw [absList, d1, m1, d5, hpre1]
        have hcong : idxFilterFrom (fun i => ¬ i ∈ indices) 0 (absList s) =
            idxFilterFrom (fun i => ¬ i ∈ normIndices s indices) 0 (absList s) := by
          apply idxFilterFrom_congr
          intro i _ hi
          rw [Nat.zero_add, absList_length s h] at hi
          constructor
          · intro hnot hmem
            exact hnot ((normIndices_mem s indices i).mp hmem).1
          · intro hnot hmem
            exact hnot ((normIndices_mem s indices i).mpr ⟨hmem, hi⟩)
        rw [hcong, absList, idxFilterFrom_append]
        congr 1
        have hml : 0 + s.memory_buffer.length =
            s.memory_buffer.length + 0 := by omega
        rw [hml, idxFilterFrom_shift]


theorem idxFilterFrom_none (p : Nat → Prop) [DecidablePred p] :
    ∀ (n : Nat) (l : List FuzzySearchResultItem),
    (∀ i, n ≤ i → i < n + l.length → ¬ p i) → idxFilterFrom p n l = [] := by
  intro n l
  induction l generalizing n with
  | nil => intro _; rfl
  | cons x xs ih =>
    intro hall
    rw [idxFilterFrom, if_neg (hall n (Nat.le_refl n) (by simp)),
      ih (n + 1) (fun i h1 h2 => hall i (by omega) (by simp; omega))]

theorem mem_of_nodup_card (S : List Nat) (n : Nat) (hnd : S.Nodup)
    (hb : ∀ i ∈ S, i < n) (hlen : n ≤ S.length) : ∀ i, i < n → i ∈ S := by
  intro i hi
  have hsub : S.toFinset ⊆ Finset.range n := by
    intro a ha
    rw [Finset.mem_range]
    exact hb a (List.mem_toFinset.mp ha)
  have hcard : (Finset.range n).card ≤ S.toFinset.card := by
    rw [List.toFinset_card_of_nodup hnd, Finset.card_range]
    exact hlen
  have heq := Finset.eq_of_subset_of_card_le hsub hcard
  have hin : i ∈ S.toFinset := by
    rw [heq]
    exact Finset.mem_range.mpr hi
  exact List.mem_toFinset.mp hin

/-- Reading each index of a strictly sorted, in-range index list picks
exactly the positions that belong to the list, in order. -/
theorem sortedPick : ∀ (l : List FuzzySearchResultItem) (S : List Nat)
    (n : Nat), List.Pairwise (· < ·) S →
    (∀ i ∈ S, n ≤ i ∧ i < n + l.length) →
    S.map (fun i => l.getD (i - n) zeroItem) =
      idxFilterFrom (fun i => i ∈ S) n l := by
  intro l
  induction l with
  | nil =>
    intro S n _ hb
    cases S with
    | nil => rfl
    | cons a as =>
      have := hb a (List.mem_cons_self a as)
      simp at this
      omega
  | cons x xs ih =>
    intro S n hsort hb
    rw [idxFilterFrom]
    by_cases hn : n ∈ S
    · cases S with
      | nil => exact absurd hn (List.not_mem_nil n)
      | cons a as =>
        have han : a = n := by
          rcases List.mem_cons.mp hn with h | h
          · omega
          · have h1 := (List.pairwise_cons.mp hsort).1 n h
            have h2 := (hb a (List.mem_cons_self a as)).1
            omega
        subst han
        rw [if_pos hn, List.map_cons, Nat.sub_self, List.getD_cons_zero]
        have htail : as.map (fun i => (x :: xs).getD (i - a) zeroItem) =
            as.map (fun i => xs.getD (i - (a + 1)) zeroItem) := by
          apply List.map_congr_left
          intro i hi
          have hlt := (List.pairwise_cons.mp hsort).1 i hi
          have : i - a = (i - (a + 1)) + 1 := by omega
          rw [this, List.getD_cons_succ]
        rw [htail, ih as (a + 1)
          (List.Pairwise.sublist (List.sublist_cons_self a as) hsort)
          (fun i hi => by
            have hlt := (List.pairwise_cons.mp hsort).1 i hi
            have := hb i (List.mem_cons_of_mem a hi)
            constructor
            · omega
            · simp at this ⊢; omega)]
        refine congrArg _ (idxFilterFrom_congr _ _ (a + 1) xs ?_)
        intro i h1 h2
        constructor
        · intro hmem
          exact List.mem_cons_of_mem a hmem
        · intro hmem
          rcases List.mem_cons.mp hmem with h | h
          · omega
          · exact h
    · rw [if_neg hn]
      have hmap : S.map (fun i => (x :: xs).getD (i - n) zeroItem) =
          S.map (fun i => xs.getD (i - (n + 1)) zeroItem) := by
        apply List.map_congr_left
        intro i hi
        have h1 := (hb i hi).1
        have h2 : i ≠ n := fun hc => hn (hc ▸ hi)
        have : i - n = (i - (n + 1)) + 1 := by omega
        rw [this, List.getD_cons_succ]
      rw [hmap, ih S (n + 1) hsort
        (fun i hi => by
          have h1 := (hb i hi).1
          have h2 : i ≠ n := fun hc => hn (hc ▸ hi)
          have h3 := (hb i hi).2
          constructor
          · omega
          · simp at h3 ⊢; omega)]

theorem keepRead_eq (s : Store) (h : Inv s) (idx : Nat) :
    keepRead s idx =
      if idx < s.total_count then some ((absList s).getD idx zeroItem)
      else none := by
  by_cases hi : idx < s.total_count
  · rw [if_pos hi, keepRead, if_neg (by omega)]
    by_cases hmem : idx < s.memory_buffer.length
    · rw [if_pos hmem, absList, List.getD_append _ _ _ _ hmem]
    · rw [if_neg hmem]
      have h1 := h.1
      have hd : 0 < s.disk_count := by omega
      obtain ⟨c, hc, hlen⟩ := mmap_isSome_of_disk_pos s h hd
      rw [hc, absList, List.getD_append_right _ _ _ _ (by omega)]
      unfold diskPrefix
      rw [hc]
      have hlt : idx - s.memory_buffer.length < s.disk_count := by omega
      simp only [List.getD_eq_getElem?_getD, List.getElem?_take, hlt, if_pos]
  · rw [if_neg hi, keepRead, if_pos (by omega)]

theorem filterMap_keepRead (s : Store) (h : Inv s) (L : List Nat) :
    L.filterMap (keepRead s) =
      (L.filter (fun i => decide (i < s.total_count))).map
        (fun i => (absList s).getD i zeroItem) := by
  induction L with
  | nil => rfl
  | cons a as ih =>
    rw [List.filterMap_cons, keepRead_eq s h a]
    by_cases ha : a < s.total_count
    · rw [if_pos ha, List.filter_cons, if_pos (by simpa using ha), List.map_cons, ih]
    · rw [if_neg ha, List.filter_cons, if_neg (by simpa using ha), ih]


theorem keep_only_results_spec (s : Store) (h : Inv s) (keep : List Nat) :
    (s.keep_only_results keep).1 = .ok () ∧
    Inv (s.keep_only_results keep).2 ∧
    (s.keep_only_results keep).2.memory_buffer_capacity =
      s.memory_buffer_capacity ∧
    (keep.Nodup → (∀ i ∈ keep, i < s.total_count) →
      absList (s.keep_only_results keep).2 =
        idxFilterFrom (fun i => i ∈ keep) 0 (absList s)) ∧
    (keep.Nodup → (absList (s.keep_only_results keep).2).Sublist (absList s)) := by
  have habs0 : absList
      { s with memory_buffer := [], disk_count := 0, total_count := 0 } = [] := by
    unfold absList diskPrefix
    cases s.mmap <;> simp
  have hinv0 : Inv
      { s with memory_buffer := [], disk_count := 0, total_count := 0 } := by
    constructor
    · simp
    · cases s.mmap <;> simp
  have hord0 : Ordered
      { s with memory_buffer := [], disk_count := 0, total_count := 0 } := by
    intro hd
    simp at hd
  by_cases hke : keep.isEmpty
  · have hnil := List.isEmpty_iff.mp hke
    rw [keep_only_results, if_pos hke]
    refine ⟨rfl, hinv0, rfl, ?_, ?_⟩
    · intro _ _
      rw [habs0, hnil]
      symm
      exact idxFilterFrom_none _ 0 _ (fun i _ _ hmem => List.not_mem_nil i hmem)
    · intro _
      rw [habs0]
      exact List.nil_sublist _
  · rw [keep_only_results, if_neg hke]
    by_cases hrc : s.total_count - keep.length = 0
    · rw [if_pos hrc]
      refine ⟨rfl, h, rfl, ?_, fun _ => List.Sublist.refl _⟩
      intro hnd hbd
      symm
      apply idxFilterFrom_all
      intro i _ hi
      rw [Nat.zero_add, absList_length s h] at hi
      exact mem_of_nodup_card keep s.total_count hnd hbd (by omega) i hi
    · rw [if_neg hrc]
      by_cases hkc : keep.length ≤ s.total_count - keep.length
      · rw [if_pos hkc]
        obtain ⟨hinv', hord', habs', hcap'⟩ :=
          foldl_add_result ((keep.insertionSort (· ≤ ·)).filterMap (keepRead s))
            _ hinv0 hord0
        have hkept : (keep.insertionSort (· ≤ ·)).filterMap (keepRead s) =
            ((keep.insertionSort (· ≤ ·)).filter
              (fun i => decide (i < s.total_count))).map
              (fun i => (absList s).getD i zeroItem) :=
          filterMap_keepRead s h _
        refine ⟨rfl, hinv', hcap', ?_, ?_⟩
        · intro hnd hbd
          rw [habs', habs0, List.nil_append, hkept]
          have hfe : (keep.insertionSort (· ≤ ·)).filter
              (fun i => decide (i < s.total_count)) = keep.insertionSort (· ≤ ·) :=
            List.filter_eq_self.mpr (fun a ha => by
              simp only [decide_eq_true_eq]
              exact hbd a ((List.mem_insertionSort _).mp ha))
          rw [hfe]
          have hsorted : List.Pairwise (· < ·) (keep.insertionSort (· ≤ ·)) := by
            have hle := List.sorted_insertionSort (· ≤ ·) keep
            have hne2 : (keep.insertionSort (· ≤ ·)).Nodup :=
              (List.perm_insertionSort (· ≤ ·) keep).nodup_iff.mpr hnd
            exact (hle.and hne2).imp (fun hab => lt_of_le_of_ne hab.1 hab.2)
          have hmapeq : (keep.insertionSort (· ≤ ·)).map
              (fun i => (absList s).getD i zeroItem) =
              (keep.insertionSort (· ≤ ·)).map
              (fun i => (absList s).getD (i - 0) zeroItem) := by
            apply List.map_congr_left
            intro a _
            rw [Nat.sub_zero]
          rw [hmapeq, sortedPick (absList s) _ 0 hsorted
            (fun i hi => ⟨Nat.zero_le i, by
              rw [Nat.zero_add, absList_length s h]
              exact hbd i ((List.mem_insertionSort _).mp hi)⟩)]
          apply idxFilterFrom_congr
          intro i _ _
          exact (List.mem_insertionSort _)
        · intro hnd
          rw [habs', habs0, List.nil_append, hkept]
          have hsorted : List.Pairwise (· < ·)
              ((keep.insertionSort (· ≤ ·)).filter
                (fun i => decide (i < s.total_count))) := by
            have hle := List.sorted_insertionSort (· ≤ ·) keep
            have hne2 : (keep.insertionSort (· ≤ ·)).Nodup :=
              (List.perm_insertionSort (· ≤ ·) keep).nodup_iff.mpr hnd
            exact List.Pairwise.sublist (List.filter_sublist _)
              ((hle.and hne2).imp (fun hab => lt_of_le_of_ne hab.1 hab.2))
          have hmapeq : ((keep.insertionSort (· ≤ ·)).filter
              (fun i => decide (i < s.total_count))).map
              (fun i => (absList s).getD i zeroItem) =
              ((keep.insertionSort (· ≤ ·)).filter
                (fun i => decide (i < s.total_count))).map
              (fun i => (absList s).getD (i - 0) zeroItem) := by
            apply List.map_congr_left
            intro a _
            rw [Nat.sub_zero]
          rw [hmapeq, sortedPick (absList s) _ 0 hsorted
            (fun i hi => ⟨Nat.zero_le i, by
              rw [Nat.zero_add, absList_length s h]
              have := (List.mem_filter.mp hi).2
              simpa using this⟩)]
          exact idxFilterFrom_sublist _ 0 _
      · rw [if_neg hkc]
        obtain ⟨b1, b2, b3, b4⟩ := remove_results_batch_spec s h
          ((List.range s.total_count).filter (fun i => ¬ i ∈ keep))
        refine ⟨b1, b2, b3, ?_, ?_⟩
        · intro hnd hbd
          rw [b4]
          apply idxFilterFrom_congr
          intro i _ hi
          rw [Nat.zero_add, absList_length s h] at hi
          constructor
          · intro hnot
            by_contra hc
            exact hnot (by
              rw [List.mem_filter]
              exact ⟨List.mem_range.mpr hi, by simpa using hc⟩)
          · intro hmem hcon
            have := (List.mem_filter.mp hcon).2
            simp at this
            exact this hmem
        · intro _
          rw [b4]
          exact idxFilterFrom_sublist _ 0 _


end Store

namespace Q

theorem wf_sub {a b : Q} (ha : wf a) (hb : wf b) : wf (sub a b) :=
  mul_pos ha hb

theorem wf_add {a b : Q} (ha : wf a) (hb : wf b) : wf (add a b) :=
  mul_pos ha hb

theorem wf_abs {a : Q} (ha : wf a) : wf (abs a) := ha

theorem toRat_sub {a b : Q} (ha : wf a) (hb : wf b) :
    (sub a b).toRat = a.toRat - b.toRat := by
  unfold toRat sub wf at *
  have ha' : (a.den : ℚ) ≠ 0 := Int.cast_ne_zero.mpr (by omega)
  have hb' : (b.den : ℚ) ≠ 0 := Int.cast_ne_zero.mpr (by omega)
  field_simp
  ring

theorem toRat_add {a b : Q} (ha : wf a) (hb : wf b) :
    (add a b).toRat = a.toRat + b.toRat := by
  unfold toRat add wf at *
  have ha' : (a.den : ℚ) ≠ 0 := Int.cast_ne_zero.mpr (by omega)
  have hb' : (b.den : ℚ) ≠ 0 := Int.cast_ne_zero.mpr (by omega)
  field_simp

theorem toRat_abs {a : Q} (ha : wf a) : (abs a).toRat = |a.toRat| := by
  unfold toRat abs wf at *
  rw [abs_div, abs_of_pos (show (0 : ℚ) < a.den by exact_mod_cast ha)]
  push_cast
  rfl

theorem blt_iff {a b : Q} (ha : wf a) (hb : wf b) :
    blt a b = true ↔ a.toRat < b.toRat := by
  unfold blt toRat wf at *
  rw [decide_eq_true_iff, div_lt_div_iff₀ (by exact_mod_cast ha) (by exact_mod_cast hb)]
  constructor
  · intro hlt
    exact_mod_cast hlt
  · intro hlt
    exact_mod_cast hlt

theorem ble_iff {a b : Q} (ha : wf a) (hb : wf b) :
    ble a b = true ↔ a.toRat ≤ b.toRat := by
  unfold ble toRat wf at *
  rw [decide_eq_true_iff, div_le_div_iff₀ (by exact_mod_cast ha) (by exact_mod_cast hb)]
  constructor
  · intro hlt
    exact_mod_cast hlt
  · intro hlt
    exact_mod_cast hlt

theorem toRat_ofInt (n : Int) : (ofInt n).toRat = (n : ℚ) := by
  unfold toRat ofInt
  simp

theorem wf_ofInt (n : Int) : wf (ofInt n) := by
  unfold wf ofInt
  simp

theorem wf_mk (n d : Int) (h : 0 < d) : wf ⟨n, d⟩ := h

end Q

namespace Store


end Store

/-! ## Claim theorems -/

theorem getD_replicate_zero : ∀ (n k : Nat), (List.replicate n 0).getD k 0 = 0 := by
  intro n
  induction n with
  | zero => intro k; cases k <;> rfl
  | succ m ih =>
    intro k
    cases k with
    | zero => rfl
    | succ j => rw [List.replicate_succ, List.getD_cons_succ]; exact ih j

theorem size_le_eight (t : ValueType) : t.size ≤ 8 := by
  cases t <;> simp [ValueType.size]

/-- C6 counterexample: for `b = [1, 1]` and `t = Byte` (so `len(b) ≥ size(t)`),
the byte of the value field at index `size(t) = 1` is `1`, not zero — the
claim's "all bytes of the value field after index size(t) are zero" fails
whenever the input slice is longer than `size(t)` and nonzero there. -/
theorem C6_counterexample :
    ValueType.Byte.size ≤ 2 ∧ ValueType.Byte.size ≤ 1 ∧
    (FuzzySearchResultItem.from_bytes 0 [1, 1] .Byte).value.getD 1 0 = 1 ∧
    ¬ (∀ j, ValueType.Byte.size ≤ j →
        (FuzzySearchResultItem.from_bytes 0 [1, 1] .Byte).value.getD j 0 = 0) := by
  refine ⟨by decide, by decide, by decide, fun hall => ?_⟩
  have := hall 1 (by decide)
  simp [FuzzySearchResultItem.from_bytes] at this

/-- C6 (amended): `from_bytes` never fails (it is a total function always
yielding a full 8-byte value field); the first `min(len(b), 8)` bytes of the
value field equal the corresponding prefix of `b`; the remaining bytes of the
8-byte field — those at indices ≥ `min(len(b), 8)` — are zero; and
`value[..size(t)] = b[..size(t)]` whenever `len(b) ≥ size(t)`.  The
trailing-zero claim holds after index `size(t)` only when `len(b) ≤ size(t)`,
not in general. -/
theorem C6_amended (a : Nat) (b : List Nat) (t : ValueType) :
    (FuzzySearchResultItem.from_bytes a b t).value.length = 8 ∧
    (FuzzySearchResultItem.from_bytes a b t).value.take (min b.length 8) =
      b.take (min b.length 8) ∧
    (∀ j, min b.length 8 ≤ j →
      (FuzzySearchResultItem.from_bytes a b t).value.getD j 0 = 0) ∧
    (t.size ≤ b.length →
      (FuzzySearchResultItem.from_bytes a b t).value.take t.size =
        b.take t.size) ∧
    (b.length ≤ t.size → ∀ j, t.size ≤ j →
      (FuzzySearchResultItem.from_bytes a b t).value.getD j 0 = 0) := by
  have hlen : (b.take (min b.length 8)).length = min b.length 8 := by
    rw [List.length_take]
    omega
  refine ⟨?_, ?_, ?_, ?_, ?_⟩
  · show (b.take (min b.length 8) ++
      List.replicate (8 - min b.length 8) 0).length = 8
    rw [List.length_append, hlen, List.length_replicate]
    omega
  · show (b.take (min b.length 8) ++
      List.replicate (8 - min b.length 8) 0).take (min b.length 8) = _
    rw [List.take_left' hlen]
  · intro j hj
    show (b.take (min b.length 8) ++
      List.replicate (8 - min b.length 8) 0).getD j 0 = 0
    rw [List.getD_append_right _ _ _ _ (by omega), getD_replicate_zero]
  · intro hbs
    show (b.take (min b.length 8) ++
      List.replicate (8 - min b.length 8) 0).take t.size = _
    have hts := size_le_eight t
    rw [List.take_append_eq_append_take, hlen, List.take_take,
      Nat.min_eq_left (by omega),
      Nat.sub_eq_zero_of_le (by omega), List.take_zero, List.append_nil]
  · intro hbs j hj
    show (b.take (min b.length 8) ++
      List.replicate (8 - min b.length 8) 0).getD j 0 = 0
    rw [List.getD_append_right _ _ _ _ (by omega), getD_replicate_zero]

/-- C6 amended witness at `b = [7, 8]`, `t = Word`. -/
theorem C6_amended_witness :
    (FuzzySearchResultItem.from_bytes 5 [7, 8] .Word).value.length = 8 ∧
    (FuzzySearchResultItem.from_bytes 5 [7, 8] .Word).value.take
        (min ([7, 8] : List Nat).length 8) = [7, 8].take (min 2 8) ∧
    ValueType.Word.size ≤ 2 ∧
    (FuzzySearchResultItem.from_bytes 5 [7, 8] .Word).value.take
        ValueType.Word.size = [7, 8].take ValueType.Word.size ∧
    (FuzzySearchResultItem.from_bytes 5 [7, 8] .Word).value.getD 3 0 = 0 := by
  obtain ⟨h0, h1, h2, h3, h4⟩ := C6_amended 5 [7, 8] .Word
  exact ⟨h0, h1, by decide, h3 (by decide), h4 (by decide) 3 (by decide)⟩

namespace Store

/-- C8: for every index `i ≥ total_count`, both `update_result` and
`remove_result` return an out-of-range error and leave the store — RAM
buffer, mapping, the counters — completely unchanged. -/
theorem C8_out_of_range (s : Store) (i : Nat) (hi : s.total_count ≤ i)
    (r : FuzzySearchResultItem) :
    s.update_result i r = (.error "Index out of bounds", s) ∧
    s.remove_result i = (.error "Index out of bounds", s) := by
  rw [update_result, if_pos hi, remove_result, if_pos hi]
  exact ⟨rfl, rfl⟩

/-- C8 witness: a store holding one record rejects index 1. -/
theorem C8_out_of_range_witness :
    ((Store.new 170).add_result zeroItem).2.update_result 1 zeroItem =
      (.error "Index out of bounds", ((Store.new 170).add_result zeroItem).2) ∧
    ((Store.new 170).add_result zeroItem).2.remove_result 1 =
      (.error "Index out of bounds", ((Store.new 170).add_result zeroItem).2) :=
  C8_out_of_range ((Store.new 170).add_result zeroItem).2 1 (by decide) zeroItem

end Store

/-- C9: every mode-typed operation of the mux fails with an error (an
`Except.error` value, never a panic) exactly on a mode mismatch, and the
mismatched call returns the manager — both stores — unchanged. -/
theorem C9_mode_mismatch (m : Mux) (x : FuzzySearchResultItem)
    (xs : List FuzzySearchResultItem) (e : ExactSearchResultItem) :
    (m.current_mode = .Exact →
      m.add_fuzzy_result x = (.error "Not in fuzzy mode", m) ∧
      m.add_fuzzy_results_batch xs = (.error "Not in fuzzy mode", m) ∧
      m.replace_all_fuzzy_results xs = (.error "Not in fuzzy mode", m) ∧
      m.get_all_fuzzy_results =
        .error "Cannot get fuzzy results in exact mode" ∧
      m.add_result (.Fuzzy x) =
        (.error "Mismatched SearchResultMode and SearchResultItem type", m)) ∧
    (m.current_mode = .Fuzzy →
      m.get_all_exact_results = .error "Cannot get exact results in fuzzy mode" ∧
      m.add_result (.Exact e) =
        (.error "Mismatched SearchResultMode and SearchResultItem type", m)) := by
  constructor
  · intro hmode
    refine ⟨?_, ?_, ?_, ?_, ?_⟩
    · rw [Mux.add_fuzzy_result, if_pos (by rw [hmode]; decide)]
    · rw [Mux.add_fuzzy_results_batch, if_pos (by rw [hmode]; decide)]
    · rw [Mux.replace_all_fuzzy_results, if_pos (by rw [hmode]; decide)]
    · rw [Mux.get_all_fuzzy_results, hmode]
    · simp only [Mux.add_result, hmode]
  · intro hmode
    refine ⟨?_, ?_⟩
    · rw [Mux.get_all_exact_results, hmode]
    · simp only [Mux.add_result, hmode]

/-- C9 witness at a freshly constructed manager in each mode. -/
theorem C9_mode_mismatch_witness :
    (Mux.mk .Exact ⟨[]⟩ (Store.new 0)).add_fuzzy_result zeroItem =
      (.error "Not in fuzzy mode", Mux.mk .Exact ⟨[]⟩ (Store.new 0)) ∧
    (Mux.mk .Fuzzy ⟨[]⟩ (Store.new 0)).get_all_exact_results =
      .error "Cannot get exact results in fuzzy mode" := by
  refine ⟨((C9_mode_mismatch (Mux.mk .Exact ⟨[]⟩ (Store.new 0)) zeroItem []
    ⟨0, .Byte⟩).1 rfl).1, ((C9_mode_mismatch (Mux.mk .Fuzzy ⟨[]⟩ (Store.new 0))
    zeroItem [] ⟨0, .Byte⟩).2 rfl).1⟩

namespace Store


theorem getLoop_mmap_none (s : Store) (hm : s.mmap = none) :
    ∀ (k i : Nat), getLoop s i k = (s.memory_buffer.drop i).take k := by
  intro k
  induction k with
  | zero => intro i; simp [getLoop]
  | succ n ih =>
    intro i
    rw [getLoop, ih (i + 1)]
    by_cases hi : i < s.memory_buffer.length
    · rw [readAt, if_pos hi, List.drop_eq_getElem_cons hi, List.take_succ_cons,
        List.getD_eq_getElem _ _ hi, List.singleton_append]
    · rw [readAt, if_neg hi, hm]
      have h1 : s.memory_buffer.drop i = [] := List.drop_eq_nil_of_le (by omega)
      have h2 : s.memory_buffer.drop (i + 1) = [] := List.drop_eq_nil_of_le (by omega)
      rw [h1, h2]
      simp

/-- C10: `get_results` (and hence `get_all_results`) never returns an error,
for any store state; when the mapping is absent the disk-tail indices are
silently skipped, so the result is just the (possibly shorter) RAM part; in
particular, after `clear_disk` without `clear` on a direct-to-disk store, the
one counted record is simply omitted — `total_count` is 1 but the returned
vector is empty — rather than an error being surfaced. -/
theorem C10_reads_never_fail :
    (∀ (s : Store) (start size : Nat), ∃ v, s.get_results start size = .ok v) ∧
    (∀ s : Store, s.mmap = none →
      s.get_all_results = .ok (s.memory_buffer.take s.total_count)) ∧
    ((((Store.new 0).add_result zeroItem).2.clear_disk).2.total_count = 1 ∧
     (((Store.new 0).add_result zeroItem).2.clear_disk).2.get_all_results =
       .ok []) := by
  refine ⟨?_, ?_, by decide, by rfl⟩
  · intro s start size
    rw [get_results]
    by_cases hs : s.total_count ≤ start
    · exact ⟨[], by rw [if_pos hs]⟩
    · exact ⟨_, by rw [if_neg hs]⟩
  · intro s hm
    rw [get_all_results, get_results]
    by_cases hs : s.total_count ≤ 0
    · rw [if_pos hs]
      have : s.total_count = 0 := by omega
      rw [this, List.take_zero]
    · rw [if_neg hs, getLoop_mmap_none s hm, List.drop_zero]
      have : min (0 + s.total_count) s.total_count - 0 = s.total_count := by omega
      rw [this]

/-- C10 witness: the mapping-absent read characterization applied to the
post-`clear_disk` store (one counted record, empty RAM, no mapping). -/
theorem C10_reads_never_fail_witness :
    (((Store.new 0).add_result zeroItem).2.clear_disk).2.get_all_results =
      .ok (((((Store.new 0).add_result zeroItem).2.clear_disk).2.memory_buffer).take
        ((((Store.new 0).add_result zeroItem).2.clear_disk).2.total_count)) ∧
    ∃ v, (Store.new 17).get_results 0 1 = .ok v :=
  ⟨C10_reads_never_fail.2.1 (((Store.new 0).add_result zeroItem).2.clear_disk).2
    (by decide), C10_reads_never_fail.1 (Store.new 17) 0 1⟩

theorem Inv_of_checks (s : Store)
    (h1 : s.total_count = s.memory_buffer.length + s.disk_count)
    (h2 : s.disk_count ≤ (s.mmap.getD []).length)
    (h3 : s.mmap.isNone → s.disk_count = 0) : Inv s := by
  refine ⟨h1, ?_⟩
  cases hm : s.mmap with
  | none => exact h3 (by rw [hm]; rfl)
  | some c =>
    have h4 := h2
    rw [hm] at h4
    simpa using h4

/-- C7: under the store invariant, `get_results start size` returns exactly
the logical records at indices `[start, min(start + size, total_count))` in
order — the drop/take segment of the logical sequence, whose length is
`total_count` — reading transparently across the RAM/disk seam (index `i`
comes from RAM when `i < memory_count`, else from spill position
`i - memory_count`), and returns `ok []`, not an error, when
`start ≥ total_count`. -/
theorem C7_get_range (s : Store) (h : Inv s) (start size : Nat) :
    s.get_results start size = .ok (((absList s).drop start).take size) ∧
    (s.total_count ≤ start → s.get_results start size = .ok []) ∧
    (absList s).length = s.total_count ∧
    (∀ i, i < s.total_count → readAt s i = [(absList s).getD i zeroItem]) ∧
    absList s = s.memory_buffer ++ diskPrefix s := by
  refine ⟨get_results_eq s h start size, ?_, absList_length s h,
    fun i hi => readAt_eq s h hi, rfl⟩
  intro hs
  rw [get_results_eq s h start size,
    List.drop_eq_nil_of_le (by rw [absList_length s h]; exact hs), List.take_nil]

end Store

namespace Store

/-- C7 witness: the range read `[1, 3)` of the seam-crossing store returns
the second RAM record followed by the spilled record. -/
theorem C7_get_range_witness :
    seamStore.get_results 1 5 =
      .ok [⟨2, List.replicate 8 0, .Dword⟩, ⟨3, List.replicate 8 0, .Dword⟩] ∧
    seamStore.get_results 7 2 = .ok [] :=
  ⟨(C7_get_range seamStore
      (Inv_of_checks seamStore (by decide) (by decide) (by decide)) 1 5).1.trans
      (by rfl),
   (C7_get_range seamStore
      (Inv_of_checks seamStore (by decide) (by decide) (by decide)) 7 2).2.1
      (by decide)⟩


end Store

namespace FuzzySearchResultItem

/-- C4 counterexample: the claim's `DecreasedByPercent p` predicate —
`new ≤ trunc(old * (1 - p))` with exact rational arithmetic — is not what the
program computes: the threshold is `(old_val as f64 * (1.0 - percent as f64))
as i64`, i.e. the multiplication and subtraction round to binary64.  For a
`Dword` record holding 100 and `p = 2⁻⁶⁰` (exactly representable in `f32`),
`1.0 - 2⁻⁶⁰` rounds to `1.0`, the computed threshold is 100 and the new value
100 matches; but the exact truncation `⌊100 * (1 - 2⁻⁶⁰)⌋ = 99` rejects it. -/
theorem C4_counterexample :
    ((from_bytes 0 [100, 0, 0, 0] .Dword).matches_condition [100, 0, 0, 0]
      (.DecreasedByPercent ⟨1, 2 ^ 60⟩) = true) ∧
    fpToI64 (f64mul (intToF64 100)
      (f64sub (.finite (Q.ofInt 1)) (.finite ⟨1, 2 ^ 60⟩))) = 100 ∧
    (Q.mul (Q.ofInt 100) (Q.sub (Q.ofInt 1) ⟨1, 2 ^ 60⟩)).trunc = 99 ∧
    ¬ ((100 : Int) ≤ 99) :=
  ⟨by decide, by decide, by decide, by decide⟩

/-- C4 (amended): for a record of an integer type, `matches_condition`
compares the sign-extended `i64` decodes with the wrapping two's-complement
difference `diff = new - old`: `IncreasedBy k` holds iff `diff = k`, and
`DecreasedByPercent p` holds iff (`old = 0` and `new < 0`) or (`old ≠ 0` and
`new ≤ threshold`), where the threshold is computed in `f64` — the correctly
rounded product `old * round(1 - p)` — and cast to `i64` with truncation and
saturation, not as an exact rational truncation.  Concretely, for a `Dword`
record holding 100: `IncreasedBy 10` accepts 110 and rejects 111, and
`DecreasedByPercent 0.5` accepts 50 and rejects 51 (these values incur no
rounding). -/
theorem C4_amended (it : FuzzySearchResultItem)
    (hint : it.value_type.is_float_type = false) (b : List Nat) (k : Int)
    (p : Q) :
    (it.matches_condition b (.IncreasedBy k) = true ↔
      wrapSub64 (from_bytes it.address b it.value_type).as_i64 it.as_i64 = k) ∧
    (it.matches_condition b (.DecreasedByPercent p) = true ↔
      ((it.as_i64 = 0 ∧ (from_bytes it.address b it.value_type).as_i64 < 0) ∨
       (it.as_i64 ≠ 0 ∧
        (from_bytes it.address b it.value_type).as_i64 ≤
          fpToI64 (f64mul (intToF64 it.as_i64)
            (f64sub (.finite (Q.ofInt 1)) (.finite p)))))) ∧
    ((from_bytes 0 [100, 0, 0, 0] .Dword).matches_condition [110, 0, 0, 0]
      (.IncreasedBy 10) = true) ∧
    ((from_bytes 0 [100, 0, 0, 0] .Dword).matches_condition [111, 0, 0, 0]
      (.IncreasedBy 10) = false) ∧
    ((from_bytes 0 [100, 0, 0, 0] .Dword).matches_condition [50, 0, 0, 0]
      (.DecreasedByPercent ⟨1, 2⟩) = true) ∧
    ((from_bytes 0 [100, 0, 0, 0] .Dword).matches_condition [51, 0, 0, 0]
      (.DecreasedByPercent ⟨1, 2⟩) = false) := by
  refine ⟨?_, ?_, by decide, by decide, by decide, by decide⟩
  · rw [matches_condition]
    simp only [hint, Bool.false_eq_true, if_false, matches_condition_int,
      decide_eq_true_iff]
  · rw [matches_condition]
    simp only [hint, Bool.false_eq_true, if_false, matches_condition_int]
    by_cases h0 : it.as_i64 = 0
    · simp [h0]
    · simp [h0]

/-- C4 amended witness at the `Dword` record holding 100. -/
theorem C4_amended_witness :
    ((from_bytes 0 [100, 0, 0, 0] .Dword).matches_condition [110, 0, 0, 0]
        (.IncreasedBy 10) = true ↔
      wrapSub64 (from_bytes 0 [110, 0, 0, 0] .Dword).as_i64
        (from_bytes 0 [100, 0, 0, 0] .Dword).as_i64 = 10) ∧
    ((from_bytes 0 [100, 0, 0, 0] .Dword).matches_condition [110, 0, 0, 0]
      (.IncreasedBy 10) = true) :=
  ⟨(C4_amended (from_bytes 0 [100, 0, 0, 0] .Dword) (by decide)
      [110, 0, 0, 0] 10 ⟨1, 2⟩).1,
   (C4_amended (from_bytes 0 [100, 0, 0, 0] .Dword) (by decide)
      [110, 0, 0, 0] 10 ⟨1, 2⟩).2.2.1⟩

/-- C5 counterexample: the claim reads the comparator's epsilon as `10⁻⁹` and
its arithmetic as exact, but the program compares the *binary64-rounded*
difference against the binary64 value of the literal `1e-9`, which is
`4835703278458517 / 2 ^ 82 > 10⁻⁹`.  For a `Double` record holding `1e-9`
(bytes of `0x3E112E0BE826D695`) and a new value `3 · 2⁻⁸⁵` (bytes of
`0x3AB8000000000000`), the exact difference is below `10⁻⁹` (so the claim's
`Unchanged` predicate holds), yet the rounded difference is exactly the
epsilon, so the program reports `Unchanged` false and `Changed` true. -/
theorem C5_counterexample :
    ((from_bytes 0 [149, 214, 38, 232, 11, 46, 17, 62] .Double).matches_condition
      [0, 0, 0, 0, 0, 0, 184, 58] .Unchanged = false) ∧
    ((from_bytes 0 [149, 214, 38, 232, 11, 46, 17, 62] .Double).matches_condition
      [0, 0, 0, 0, 0, 0, 184, 58] .Changed = true) ∧
    (from_bytes 0 [149, 214, 38, 232, 11, 46, 17, 62] .Double).as_f64 =
      .finite ⟨4835703278458517, 2 ^ 82⟩ ∧
    (from_bytes 0 [0, 0, 0, 0, 0, 0, 184, 58] .Double).as_f64 =
      .finite ⟨6755399441055744, 2 ^ 136⟩ ∧
    |Q.toRat ⟨4835703278458517, 2 ^ 82⟩ - Q.toRat ⟨6755399441055744, 2 ^ 136⟩| <
      1 / 1000000000 := by
  refine ⟨by decide, by decide, by decide, by decide, ?_⟩
  unfold Q.toRat
  rw [abs_sub_lt_iff]
  norm_num

/-- C5 (amended): for a record of type `Float` or `Double`,
`matches_condition` routes every condition to the float comparator, whose
epsilon is the binary64 value of the literal `1e-9`, namely
`ε = 4835703278458517 / 2 ^ 82` (not `10⁻⁹`), and whose arithmetic is
binary64: with `d` the rounded difference `old - new` and `su` the rounded
sum `old + ε`, `Unchanged` holds iff `|d| < ε`, `Changed` iff `|d| ≥ ε`, and
`Increased` iff `new > su`.  Concretely, for a `Float` record holding `1.0`:
the bytes of the `f32` nearest `1.0 + 10⁻¹²` (which are the bits of `1.0`)
satisfy `Unchanged`, `1.1f32` satisfies `Increased`, and `1.0f32` does not
satisfy `Changed`. -/
theorem C5_amended (it : FuzzySearchResultItem)
    (hfl : it.value_type.is_float_type = true) (b : List Nat)
    (cond : FuzzyCondition) (qo qn d su : Q) (ho : it.as_f64 = .finite qo)
    (hn : (from_bytes it.address b it.value_type).as_f64 = .finite qn)
    (hd : f64sub (.finite qo) (.finite qn) = .finite d)
    (hsu : f64add (.finite qo) epsilonF64 = .finite su)
    (hwd : d.wf) (hwsu : su.wf) (hwn : qn.wf) :
    (it.matches_condition b cond =
      it.matches_condition_float (from_bytes it.address b it.value_type) cond) ∧
    (it.matches_condition b .Unchanged = true ↔
      |d.toRat| < 4835703278458517 / 2 ^ 82) ∧
    (it.matches_condition b .Changed = true ↔
      4835703278458517 / 2 ^ 82 ≤ |d.toRat|) ∧
    (it.matches_condition b .Increased = true ↔ su.toRat < qn.toRat) ∧
    ((from_bytes 0 [0, 0, 128, 63] .Float).matches_condition [0, 0, 128, 63]
      .Unchanged = true) ∧
    ((from_bytes 0 [0, 0, 128, 63] .Float).matches_condition [205, 204, 140, 63]
      .Increased = true) ∧
    ((from_bytes 0 [0, 0, 128, 63] .Float).matches_condition [0, 0, 128, 63]
      .Changed = false) := by
  have hroute : ∀ c, it.matches_condition b c =
      it.matches_condition_float (from_bytes it.address b it.value_type) c := by
    intro c
    rw [matches_condition]
    simp only [hfl, if_true]
  have heps : Q.wf ⟨4835703278458517, 2 ^ 82⟩ := Q.wf_mk _ _ (by decide)
  have hepsr : Q.toRat ⟨4835703278458517, 2 ^ 82⟩ = 4835703278458517 / 2 ^ 82 := by
    unfold Q.toRat
    norm_num
  refine ⟨hroute cond, ?_, ?_, ?_, by decide, by decide, by decide⟩
  · rw [hroute, matches_condition_float]
    show FP.lt (FP.abs (f64sub it.as_f64
      (from_bytes it.address b it.value_type).as_f64)) epsilonF64 = true ↔ _
    rw [ho, hn, hd]
    show Q.blt (Q.abs d) ⟨4835703278458517, 2 ^ 82⟩ = true ↔ _
    rw [Q.blt_iff (Q.wf_abs hwd) heps, Q.toRat_abs hwd, hepsr]
  · rw [hroute, matches_condition_float]
    show FP.le epsilonF64 (FP.abs (f64sub it.as_f64
      (from_bytes it.address b it.value_type).as_f64)) = true ↔ _
    rw [ho, hn, hd]
    show Q.ble ⟨4835703278458517, 2 ^ 82⟩ (Q.abs d) = true ↔ _
    rw [Q.ble_iff heps (Q.wf_abs hwd), Q.toRat_abs hwd, hepsr]
  · rw [hroute, matches_condition_float]
    show FP.lt (f64add it.as_f64 epsilonF64)
      (from_bytes it.address b it.value_type).as_f64 = true ↔ _
    rw [ho, hn, hsu]
    show Q.blt su qn = true ↔ _
    rw [Q.blt_iff hwsu hwn]

/-- C5 amended witness at the `Float` record holding `1.0` against the bytes
of `1.1f32` (exact value `9227469 / 2^23`): the rounded difference is
`-838861 / 2^23` and the rounded `1.0 + ε` is `281474976992131 / 2^48`. -/
theorem C5_amended_witness :
    ((from_bytes 0 [0, 0, 128, 63] .Float).matches_condition [205, 204, 140, 63]
      .Increased = true ↔
      Q.toRat ⟨281474976992131, 2 ^ 48⟩ < Q.toRat ⟨9227469, 8388608⟩) ∧
    ((from_bytes 0 [0, 0, 128, 63] .Float).matches_condition [205, 204, 140, 63]
      .Unchanged = false) :=
  ⟨(C5_amended (from_bytes 0 [0, 0, 128, 63] .Float) (by decide)
      [205, 204, 140, 63] .Increased ⟨8388608, 8388608⟩ ⟨9227469, 8388608⟩
      ⟨-838861, 2 ^ 23⟩ ⟨281474976992131, 2 ^ 48⟩ (by decide) (by decide)
      (by decide) (by decide) (Q.wf_mk _ _ (by decide))
      (Q.wf_mk _ _ (by decide)) (Q.wf_mk _ _ (by decide))).2.2.2.1,
   by decide⟩

end FuzzySearchResultItem

namespace Store


end Store

namespace Store

/-- C1 counterexample: on a capacity-2 store holding records 1, 2 in RAM and
record 3 on disk, removing index 0 frees a RAM slot; the next `add_result`
(record 4) is pushed into RAM and therefore lands *before* the disk record:
`get_all_results` yields `[2, 4, 3]`, not the insertion order `[2, 3, 4]` —
refuting the claim's "a record added after a RAM-side removal while disk
records exist must still appear after all previously added surviving
records". -/
theorem C1_counterexample :
    ((seamStore.remove_result 0).2.add_result
        ⟨4, List.replicate 8 0, .Dword⟩).2.get_all_results =
      .ok [⟨2, List.replicate 8 0, .Dword⟩, ⟨4, List.replicate 8 0, .Dword⟩,
        ⟨3, List.replicate 8 0, .Dword⟩] ∧
    ¬ ((seamStore.remove_result 0).2.add_result
        ⟨4, List.replicate 8 0, .Dword⟩).2.get_all_results =
      .ok [⟨2, List.replicate 8 0, .Dword⟩, ⟨3, List.replicate 8 0, .Dword⟩,
        ⟨4, List.replicate 8 0, .Dword⟩] := by
  refine ⟨by rfl, fun hcon => ?_⟩
  have h1 : ((seamStore.remove_result 0).2.add_result
      ⟨4, List.replicate 8 0, .Dword⟩).2.get_all_results =
      .ok [⟨2, List.replicate 8 0, .Dword⟩, ⟨4, List.replicate 8 0, .Dword⟩,
        ⟨3, List.replicate 8 0, .Dword⟩] := by rfl
  rw [h1] at hcon
  have h2 := Except.ok.inj hcon
  exact absurd h2 (by decide)

/-- C1 (amended): deletions are order-preserving — `remove_result` erases
exactly the record at the given logical index, `remove_results_batch` keeps
exactly the records whose index is not listed, and `keep_only_results` with a
duplicate-free keep list returns a subsequence of the logical sequence — and
`replace_all`/`clear` behave as stated; but an append lands after all present
records only when the store is packed (disk empty, or RAM at capacity, or
direct-to-disk): a record added while the RAM buffer has spare room and disk
records exist is inserted at the seam, before the disk records. -/
theorem C1_amended (s : Store) (h : Inv s) :
    (∀ x, (s.disk_count = 0 ∨ s.memory_buffer_capacity = 0 ∨
        s.memory_buffer_capacity ≤ s.memory_buffer.length) →
      absList (s.add_result x).2 = absList s ++ [x]) ∧
    (∀ x, s.disk_count ≠ 0 → s.memory_buffer_capacity ≠ 0 →
        s.memory_buffer.length < s.memory_buffer_capacity →
      absList (s.add_result x).2 = s.memory_buffer ++ [x] ++ s.diskPrefix) ∧
    (∀ i, i < s.total_count →
      absList (s.remove_result i).2 = (absList s).eraseIdx i) ∧
    (∀ L, absList (s.remove_results_batch L).2 =
      idxFilterFrom (fun i => ¬ i ∈ L) 0 (absList s)) ∧
    (∀ S, S.Nodup → (absList (s.keep_only_results S).2).Sublist (absList s)) ∧
    (∀ l, absList (s.replace_all l).2 = l) ∧
    absList (s.clear).2 = [] ∧
    s.get_all_results = .ok (absList s) := by
  refine ⟨?_, ?_, fun i hi => (remove_result_spec s h hi).2.2.2.2,
    fun L => (remove_results_batch_spec s h L).2.2.2,
    fun S hS => (keep_only_results_spec s h S).2.2.2.2 hS,
    fun l => (replace_all_spec s l).2.2,
    (clear_spec s).2.2.2, get_all_results_eq s h⟩
  · intro x hcase
    rw [(add_result_spec s h x).2.2.2.2]
    by_cases hbr : s.memory_buffer_capacity ≠ 0 ∧
        s.memory_buffer.length < s.memory_buffer_capacity
    · rw [if_pos hbr]
      have hdc : s.disk_count = 0 := by
        rcases hcase with hc | hc | hc
        · exact hc
        · exact absurd hc hbr.1
        · omega
      have hpre : s.diskPrefix = [] := by
        have hl := diskPrefix_length s h
        rw [hdc] at hl
        exact List.eq_nil_of_length_eq_zero hl
      rw [hpre, absList, hpre]
      simp
    · rw [if_neg hbr]
  · intro x hdc hc hr
    rw [(add_result_spec s h x).2.2.2.2, if_pos ⟨hc, hr⟩]

/-- C1 amended witness: the seam-crossing store. -/
theorem C1_amended_witness :
    absList (seamStore.remove_result 1).2 = (absList seamStore).eraseIdx 1 ∧
    absList (seamStore.clear).2 = [] :=
  ⟨(C1_amended seamStore
      (Inv_of_checks seamStore (by decide) (by decide) (by decide))).2.2.1 1
      (by decide),
   (C1_amended seamStore
      (Inv_of_checks seamStore (by decide) (by decide) (by decide))).2.2.2.2.2.2.1⟩

/-- C2 counterexample: a direct-to-disk store holding a single spilled record,
after `clear_disk` (without `clear`): `disk_count` is reset to 0 while
`total_count` stays 1, so `total_count ≠ memory_count + disk_count`, and
`get_all_results` returns no records although `total_count` is 1. -/
theorem C2_counterexample :
    (((Store.new 0).add_result zeroItem).2.clear_disk).2.total_count = 1 ∧
    (((Store.new 0).add_result zeroItem).2.clear_disk).2.memory_count = 0 ∧
    (((Store.new 0).add_result zeroItem).2.clear_disk).2.disk_count = 0 ∧
    ¬ ((((Store.new 0).add_result zeroItem).2.clear_disk).2.total_count =
        (((Store.new 0).add_result zeroItem).2.clear_disk).2.memory_count +
        (((Store.new 0).add_result zeroItem).2.clear_disk).2.disk_count) ∧
    (((Store.new 0).add_result zeroItem).2.clear_disk).2.get_all_results =
      .ok [] := by
  refine ⟨by decide, by decide, by decide, by decide, by rfl⟩

/-- C2 (amended): the invariant `total_count = memory_count + disk_count`
(together with the mapping covering the valid disk prefix) holds after
`add_result`, `remove_result`, `remove_results_batch`, `keep_only_results`,
`replace_all`, `clear` and `destroy` return, and in such states `total_count`
equals the number of records `get_all_results` returns; `clear_disk` is the
exception — it zeroes `disk_count` but leaves `total_count`, breaking the
identity whenever disk records existed. -/
theorem C2_amended (s : Store) (h : Inv s) :
    (∀ x, Inv (s.add_result x).2) ∧
    (∀ i, Inv (s.remove_result i).2) ∧
    (∀ L, Inv (s.remove_results_batch L).2) ∧
    (∀ S, Inv (s.keep_only_results S).2) ∧
    (∀ l, Inv (s.replace_all l).2) ∧
    Inv (s.clear).2 ∧
    Inv (s.destroy).2 ∧
    s.total_count = s.memory_count + s.disk_count ∧
    (∃ v, s.get_all_results = .ok v ∧ v.length = s.total_count) := by
  refine ⟨fun x => (add_result_spec s h x).2.1, fun i => ?_,
    fun L => (remove_results_batch_spec s h L).2.1,
    fun S => (keep_only_results_spec s h S).2.1,
    fun l => (replace_all_spec s l).2.1,
    (clear_spec s).2.1, (destroy_spec s).2.1, h.1,
    ⟨absList s, get_all_results_eq s h, absList_length s h⟩⟩
  by_cases hi : i < s.total_count
  · exact (remove_result_spec s h hi).2.1
  · rw [remove_result, if_pos (by omega)]
    exact h

/-- C2 amended witness: count identity through a removal on the seam store. -/
theorem C2_amended_witness :
    Inv (seamStore.remove_result 0).2 ∧
    seamStore.total_count = seamStore.memory_count + seamStore.disk_count :=
  ⟨(C2_amended seamStore
      (Inv_of_checks seamStore (by decide) (by decide) (by decide))).2.1 0,
   (C2_amended seamStore
      (Inv_of_checks seamStore (by decide) (by decide)
        (by decide))).2.2.2.2.2.2.2.1⟩

/-- C3 counterexample: on a two-record store, `keep_only_results [0, 0]` has
`keep_count = 2 ≥ total_count`, so `remove_count = 0` and the early "keep
all" return fires — both records survive — while
`remove_results_batch (complement of {0})` deletes record 1; the two logical
sequences differ, refuting the duality for index lists with duplicates
(out-of-range entries inflate `keep_count` the same way). -/
theorem C3_counterexample :
    (twoStore.keep_only_results [0, 0]).2.get_all_results =
      .ok [⟨1, List.replicate 8 0, .Dword⟩, ⟨2, List.replicate 8 0, .Dword⟩] ∧
    (twoStore.remove_results_batch ((List.range twoStore.total_count).filter
        (fun i => ¬ i ∈ ([0, 0] : List Nat)))).2.get_all_results =
      .ok [⟨1, List.replicate 8 0, .Dword⟩] ∧
    ([⟨1, List.replicate 8 0, .Dword⟩, ⟨2, List.replicate 8 0, .Dword⟩] :
      List FuzzySearchResultItem) ≠ [⟨1, List.replicate 8 0, .Dword⟩] := by
  refine ⟨by rfl, by rfl, by decide⟩

/-- C3 (amended): for every consistent store state and every keep list `S`
that is duplicate-free and contains only in-range indices,
`keep_only_results S` leaves the same logical record sequence as
`remove_results_batch` applied to the complement of `S` within
`0..total_count`.  Duplicate or out-of-range entries in `S` break the
duality: they inflate `keep_count`, which can trigger the keep-all early
return (or duplicate records in the rebuild), as the counterexample shows. -/
theorem C3_amended (s : Store) (h : Inv s) (S : List Nat) (hnd : S.Nodup)
    (hbd : ∀ i ∈ S, i < s.total_count) :
    absList (s.keep_only_results S).2 =
      absList (s.remove_results_batch ((List.range s.total_count).filter
        (fun i => ¬ i ∈ S))).2 ∧
    (s.keep_only_results S).2.get_all_results =
      (s.remove_results_batch ((List.range s.total_count).filter
        (fun i => ¬ i ∈ S))).2.get_all_results := by
  have hk := keep_only_results_spec s h S
  have hr := remove_results_batch_spec s h
    ((List.range s.total_count).filter (fun i => ¬ i ∈ S))
  have habs : absList (s.keep_only_results S).2 =
      absList (s.remove_results_batch ((List.range s.total_count).filter
        (fun i => ¬ i ∈ S))).2 := by
    rw [hk.2.2.2.1 hnd hbd, hr.2.2.2]
    apply idxFilterFrom_congr
    intro i _ hi
    rw [Nat.zero_add, absList_length s h] at hi
    constructor
    · intro hmem hcon
      have h2 := (List.mem_filter.mp hcon).2
      simp at h2
      exact h2 hmem
    · intro hq
      by_contra hc
      exact hq (List.mem_filter.mpr ⟨List.mem_range.mpr hi, by simpa using hc⟩)
  refine ⟨habs, ?_⟩
  rw [get_all_results_eq _ hk.2.1, get_all_results_eq _ hr.2.1, habs]

/-- C3 amended witness: keeping index 0 of the two-record store equals
deleting its complement. -/
theorem C3_amended_witness :
    (twoStore.keep_only_results [0]).2.get_all_results =
      (twoStore.remove_results_batch ((List.range twoStore.total_count).filter
        (fun i => ¬ i ∈ ([0] : List Nat)))).2.get_all_results :=
  (C3_amended twoStore
    (Inv_of_checks twoStore (by decide) (by decide) (by decide)) [0]
    (by decide) (by decide)).2

end Store

end MX
